import Mathlib

/-!
Verification development for the voxel world core of the Cubic repository
(`src/Level.h`, `src/Game.cpp`).  The repository ships only the `Level` class
declaration (`Level.h`) together with the driver (`Game.cpp`); the member
function bodies of `Level` are not part of the source tree, so those
operations are modelled from the specification document, faithful to its
wording, as flagged in each doc comment.  `Game.cpp` (driver loop, CRC32
debug checksum) is embedded from the source directly.

Machine integers are modelled as `Nat`/`Int` with explicit `% 2 ^ 32` where
C unsigned arithmetic wraps; floats of the clip query are modelled as `ℚ`.
-/

namespace Cubic

/-- Tile type code, an `unsigned char` in the source (values below 256). -/
abbrev Byte := Nat

/-- A 3D integer grid coordinate, the `int x, y, z` triples of `Level.h`. -/
abbrev Coord := Int × Int × Int

namespace Level

/-- Grid extent along x, from `Level.h`: `constexpr static int WIDTH = 128`. -/
def WIDTH : Nat := 128

/-- Grid extent along y, from `Level.h`: `constexpr static int HEIGHT = 64`. -/
def HEIGHT : Nat := 64

/-- Grid extent along z, from `Level.h`: `constexpr static int DEPTH = 128`. -/
def DEPTH : Nat := 128

/-- Total cell count `WIDTH * HEIGHT * DEPTH` of the flat `blocks` array. -/
def VOLUME : Nat := WIDTH * HEIGHT * DEPTH

/-- Modelled from the spec: `Block.h` is not in the source tree; the spec
fixes only the classification families (air, solid, still/flowing water,
still/flowing lava).  The air sentinel is the zero byte. -/
def AIR : Byte := 0

/-- Modelled from the spec: a representative solid tile code. -/
def ROCK : Byte := 1

/-- Modelled from the spec: the flowing-water tile code. -/
def FLOWING_WATER : Byte := 8

/-- Modelled from the spec: the still-water tile code. -/
def STILL_WATER : Byte := 9

/-- Modelled from the spec: the flowing-lava tile code. -/
def FLOWING_LAVA : Byte := 10

/-- Modelled from the spec: the still-lava tile code. -/
def STILL_LAVA : Byte := 11

/-- Modelled from the spec: byte overload `Level::isAirTile(unsigned char)`. -/
def isAirTile (t : Byte) : Bool := t == AIR

/-- Modelled from the spec: byte overload of `Level::isMovingWaterTile`. -/
def isMovingWaterTile (t : Byte) : Bool := t == FLOWING_WATER

/-- Modelled from the spec: byte overload of `Level::isWaterTile`, the
water family (flowing or still). -/
def isWaterTile (t : Byte) : Bool := t == FLOWING_WATER || t == STILL_WATER

/-- Modelled from the spec: byte overload of `Level::isMovingLavaTile`. -/
def isMovingLavaTile (t : Byte) : Bool := t == FLOWING_LAVA

/-- Modelled from the spec: byte overload of `Level::isLavaTile`. -/
def isLavaTile (t : Byte) : Bool := t == FLOWING_LAVA || t == STILL_LAVA

/-- Modelled from the spec: a byte is in a liquid family. -/
def isLiquidTile (t : Byte) : Bool := isWaterTile t || isLavaTile t

/-- Modelled from the spec: a solid tile is one that is neither air nor a
liquid; solids are the light blockers and the clip obstacles. -/
def isSolidTile (t : Byte) : Bool := !isAirTile t && !isLiquidTile t

/-- Modelled from the spec: `Level::isInBounds(x,y,z)`, the boundary
predicate `0 ≤ x < WIDTH ∧ 0 ≤ y < HEIGHT ∧ 0 ≤ z < DEPTH`. -/
def isInBounds (x y z : Int) : Bool :=
  0 ≤ x && x < (WIDTH : Int) && 0 ≤ y && y < (HEIGHT : Int) &&
    0 ≤ z && z < (DEPTH : Int)

/-- Bounds predicate on a packed coordinate triple. -/
def isInBoundsC (c : Coord) : Bool := isInBounds c.1 c.2.1 c.2.2

/-- Modelled from the spec: the fixed row-major linearization
`(x,y,z) ↦ (y * DEPTH + z) * WIDTH + x` used by every operation that
touches the flat `blocks` array. -/
def index (x y z : Int) : Nat := (y.toNat * DEPTH + z.toNat) * WIDTH + x.toNat

/-- Linearization on a packed coordinate triple. -/
def indexC (c : Coord) : Nat := index c.1 c.2.1 c.2.2

/-- Inverse of the linearization on the valid index range. -/
def coordOfIndex (i : Nat) : Coord :=
  (Int.ofNat (i % WIDTH), Int.ofNat (i / (WIDTH * DEPTH)),
    Int.ofNat ((i / WIDTH) % DEPTH))

/-- Modelled from the spec: the column linearization `(x,z) ↦ z * WIDTH + x`
for the per-column `lightDepths` array. -/
def colIndex (x z : Int) : Nat := z.toNat * WIDTH + x.toNat

end Level

open Level in
/-- The `Level` object: the flat tile byte array, the per-column light
depth array, the world metadata scalars, and the FIFO update queue
(`std::queue<glm::ivec3> updates`). -/
structure Level where
  blocks : Nat → Byte
  lightDepths : Nat → Int
  groundLevel : Int
  waterLevel : Int
  updates : List Coord

namespace Level

/-- Modelled from the spec: `Level::getTile` returns the tile byte at the
coordinate, or the air sentinel if out of bounds, with no side effects. -/
def getTile (l : Level) (x y z : Int) : Byte :=
  if isInBounds x y z then l.blocks (index x y z) else AIR

/-- `getTile` on a packed coordinate. -/
def getTileC (l : Level) (c : Coord) : Byte := getTile l c.1 c.2.1 c.2.2

/-- Modelled from the spec: the topmost y of the column `(x,z)` holding a
light-blocking tile, scanning downward from the top of the grid, or the
below-grid sentinel `-1` when the column has no blocker (fully lit). -/
def columnLightDepth (b : Nat → Byte) (x z : Int) : Int :=
  match (List.range HEIGHT).reverse.find?
      (fun y => isSolidTile (b (index x (Int.ofNat y) z))) with
  | some y => Int.ofNat y
  | none => -1

/-- Modelled from the spec: the raw in-bounds cell write.  Out-of-bounds
writes are silent no-ops; an in-bounds write stores the byte at the fixed
linear index and eagerly re-establishes the mutated column's light depth,
keeping the light contract of the spec after every tile mutation. -/
def writeTile (l : Level) (x y z : Int) (t : Byte) : Level :=
  if isInBounds x y z then
    let b := Function.update l.blocks (index x y z) t
    { l with
        blocks := b
        lightDepths :=
          Function.update l.lightDepths (colIndex x z) (columnLightDepth b x z) }
  else l

/-- `writeTile` on a packed coordinate. -/
def writeTileC (l : Level) (c : Coord) (t : Byte) : Level :=
  writeTile l c.1 c.2.1 c.2.2 t

/-- Modelled from the spec: `Level::setTile` unconditionally writes the
type at the coordinate if in bounds; the `mode` flag only selects the
raw/forced write that bypasses neighbor propagation, which `setTile`
itself never performs. -/
def setTile (l : Level) (x y z : Int) (t : Byte) (mode : Bool) : Level :=
  writeTile l x y z t

/-- The six face-adjacent neighbors of a cell, plus the cell itself, the
set enqueued for re-evaluation by `setTileWithNeighborChange`. -/
def selfAndNeighbors (x y z : Int) : List Coord :=
  [(x, y, z), (x - 1, y, z), (x + 1, y, z), (x, y - 1, z), (x, y + 1, z),
    (x, y, z - 1), (x, y, z + 1)]

/-- Modelled from the spec: `Level::setTileWithNeighborChange` writes the
tile, enqueues the six face-adjacent neighbors and the tile itself into
the update queue, and returns whether the write actually changed the
stored value (`false` when the tile already held `type`). -/
def setTileWithNeighborChange (l : Level) (x y z : Int) (t : Byte)
    (mode : Bool) : Bool × Level :=
  if isInBounds x y z then
    if l.blocks (index x y z) == t then (false, l)
    else
      let l1 := writeTile l x y z t
      (true, { l1 with updates := l1.updates ++ selfAndNeighbors x y z })
  else (false, l)

/-- Modelled from the spec: `Level::setTileWithNoNeighborChange` writes the
tile and schedules re-evaluation of the tile itself only. -/
def setTileWithNoNeighborChange (l : Level) (x y z : Int) (t : Byte)
    (mode : Bool) : Bool × Level :=
  if isInBounds x y z then
    if l.blocks (index x y z) == t then (false, l)
    else
      let l1 := writeTile l x y z t
      (true, { l1 with updates := l1.updates ++ [(x, y, z)] })
  else (false, l)

/-- Modelled from the spec: `Level::calculateLightDepths(x, z, offsetX,
offsetZ)` recomputes the lit depth for the rectangle of columns
`[x, x+offsetX) × [z, z+offsetZ)` from the current blocks. -/
def rectColumns (x z ox oz : Int) : List (Int × Int) :=
  (List.range ox.toNat).flatMap fun i =>
    (List.range oz.toNat).map fun k => (x + Int.ofNat i, z + Int.ofNat k)

/-- Modelled from the spec: the bulk light-depth recomputation. -/
def calculateLightDepths (l : Level) (x z ox oz : Int) : Level :=
  { l with
      lightDepths :=
        (rectColumns x z ox oz).foldl
          (fun d p =>
            Function.update d (colIndex p.1 p.2) (columnLightDepth l.blocks p.1 p.2))
          l.lightDepths }

/-- Modelled from the spec: `Level::isTileLit` is true iff `y` is at or
above the column's recorded light depth; out-of-bounds cells count as
fully lit. -/
def isTileLit (l : Level) (x y z : Int) : Bool :=
  if isInBounds x y z then decide (l.lightDepths (colIndex x z) ≤ y) else true

/-- Modelled from the spec: `Level::getTileBrightness` combines the
lit/unlit state with an underwater attenuation factor; deterministic
given the grid state. -/
def getTileBrightness (l : Level) (x y z : Int) : ℚ :=
  if isTileLit l x y z then
    (if isWaterTile (getTile l x y z) then 8 / 10 else 1)
  else 6 / 10

/-- The cell directly below a coordinate (gravity direction). -/
def belowC (c : Coord) : Coord := (c.1, c.2.1 - 1, c.2.2)

/-- The four horizontally face-adjacent cells of a coordinate. -/
def horizNeighbors (c : Coord) : List Coord :=
  [(c.1 - 1, c.2.1, c.2.2), (c.1 + 1, c.2.1, c.2.2),
    (c.1, c.2.1, c.2.2 - 1), (c.1, c.2.1, c.2.2 + 1)]

/-- All six face-adjacent cells of a coordinate. -/
def allNeighbors (c : Coord) : List Coord :=
  belowC c :: (c.1, c.2.1 + 1, c.2.2) :: horizNeighbors c

/-- Modelled from the spec: `Level::canFlood(x,y,z,type)` is true iff the
target cell is in bounds and empty (air) and the source type is a liquid
family permitted to spread into it. -/
def canFlood (l : Level) (x y z : Int) (t : Byte) : Bool :=
  isInBounds x y z && isAirTile (getTile l x y z) && isLiquidTile t

/-- `canFlood` on a packed coordinate. -/
def canFloodC (l : Level) (c : Coord) (t : Byte) : Bool :=
  canFlood l c.1 c.2.1 c.2.2 t

/-- Modelled from the spec: the gravity-aware flow rule.  A liquid at `c`
spreads downward unconditionally when the cell below is floodable, and
spreads horizontally only when it cannot fall further. -/
def floodTargets (l : Level) (c : Coord) (t : Byte) : List Coord :=
  if canFloodC l (belowC c) t then [belowC c]
  else (horizNeighbors c).filter fun d => canFloodC l d t

/-- Modelled from the spec: the settled sub-type of a flowing liquid. -/
def stillOf (t : Byte) : Byte :=
  if t == FLOWING_WATER then STILL_WATER
  else if t == FLOWING_LAVA then STILL_LAVA else t

/-- Modelled from the spec: the water/lava contact test around a cell
about to be flooded with liquid family `t`. -/
def oppositeNearby (l : Level) (c : Coord) (t : Byte) : Bool :=
  (allNeighbors c).any fun d =>
    if isWaterTile t then isLavaTile (getTileC l d)
    else isWaterTile (getTileC l d)

/-- Modelled from the spec: the tile written by a flood step; on water/lava
contact the defined output is a stone-like solid, otherwise the flowing
liquid itself. -/
def floodResult (l : Level) (c : Coord) (t : Byte) : Byte :=
  if oppositeNearby l c t then ROCK else t

/-- Modelled from the spec: one flood step: write the contact-resolved
tile into the target cell and, when the written tile is a liquid, enqueue
the target for re-evaluation on a later tick. -/
def floodInto (l : Level) (t : Byte) (d : Coord) : Level :=
  if isLiquidTile (floodResult l d t) then
    { writeTileC l d (floodResult l d t) with
        updates := (writeTileC l d (floodResult l d t)).updates ++ [d] }
  else writeTileC l d (floodResult l d t)

/-- Modelled from the spec: re-evaluation of one queued coordinate.  A
flowing liquid floods every cell the flow rule allows and stays flowing
(re-enqueued), or settles into its still sub-type when it can no longer
find a displaceable neighbor; any other tile is left unchanged (stale
entries are tolerated). -/
def processEntry (l : Level) (c : Coord) : Level :=
  if isMovingWaterTile (getTileC l c) || isMovingLavaTile (getTileC l c) then
    if (floodTargets l c (getTileC l c)).isEmpty then
      writeTileC l c (stillOf (getTileC l c))
    else
      { (floodTargets l c (getTileC l c)).foldl
          (fun acc d => floodInto acc (getTileC l c) d) l with
          updates :=
            ((floodTargets l c (getTileC l c)).foldl
              (fun acc d => floodInto acc (getTileC l c) d) l).updates ++ [c] }
  else l

/-- Modelled from the spec: `Level::tick` drains the update queue once:
the queued coordinates are re-evaluated in FIFO order, and entries
enqueued while draining are processed on a later tick. -/
def tick (l : Level) : Level :=
  l.updates.foldl processEntry { l with updates := [] }

/-- Modelled from the spec: `Level::updateTile(x,y,z,deferred)` either
evaluates the cell synchronously or pushes it for a later tick. -/
def updateTile (l : Level) (x y z : Int) (deferred : Bool) : Level :=
  if deferred then { l with updates := l.updates ++ [(x, y, z)] }
  else processEntry l (x, y, z)

/-- Modelled from the spec: `Level::getRenderTile` substitutes the base
render form for flowing-liquid sub-variants; otherwise like `getTile`. -/
def getRenderTile (l : Level) (x y z : Int) : Byte :=
  let t := getTile l x y z
  if t == FLOWING_WATER then STILL_WATER
  else if t == FLOWING_LAVA then STILL_LAVA else t

/-- The light contract of the spec: every valid column's stored light
depth equals the topmost y holding a light-blocking tile there, or the
below-grid sentinel when the column has no blocker. -/
def LightInv (l : Level) : Prop :=
  ∀ x z : Int, 0 ≤ x → x < (WIDTH : Int) → 0 ≤ z → z < (DEPTH : Int) →
    l.lightDepths (colIndex x z) = columnLightDepth l.blocks x z

/-- An all-air level with a consistent (fully lit) light-depth array. -/
def flatAir : Level := ⟨fun _ => AIR, fun _ => -1, 32, 32, []⟩

/-- Modelled from the spec: the classification member functions embedded
as state transformers (result, post-state); the spec requires them to be
pure queries over the byte value or grid neighborhood. -/
def isAirTileM (l : Level) (t : Byte) : Bool × Level := (isAirTile t, l)

/-- Coordinate overload of `Level::isAirTile` as a state transformer. -/
def isAirTileAtM (l : Level) (x y z : Int) : Bool × Level :=
  (isAirTile (getTile l x y z), l)

/-- Byte overload of `Level::isWaterTile` as a state transformer. -/
def isWaterTileM (l : Level) (t : Byte) : Bool × Level := (isWaterTile t, l)

/-- Coordinate overload of `Level::isWaterTile` as a state transformer. -/
def isWaterTileAtM (l : Level) (x y z : Int) : Bool × Level :=
  (isWaterTile (getTile l x y z), l)

/-- Byte overload of `Level::isMovingWaterTile` as a state transformer. -/
def isMovingWaterTileM (l : Level) (t : Byte) : Bool × Level :=
  (isMovingWaterTile t, l)

/-- Coordinate overload of `Level::isMovingWaterTile`. -/
def isMovingWaterTileAtM (l : Level) (x y z : Int) : Bool × Level :=
  (isMovingWaterTile (getTile l x y z), l)

/-- Byte overload of `Level::isLavaTile` as a state transformer. -/
def isLavaTileM (l : Level) (t : Byte) : Bool × Level := (isLavaTile t, l)

/-- Integer-coordinate overload of `Level::isLavaTile`. -/
def isLavaTileAtM (l : Level) (x y z : Int) : Bool × Level :=
  (isLavaTile (getTile l x y z), l)

/-- Float-coordinate overload of `Level::isLavaTile`, floors are modelled
on rationals. -/
def isLavaTileFloatM (l : Level) (x y z : ℚ) : Bool × Level :=
  (isLavaTile (getTile l ⌊x⌋ ⌊y⌋ ⌊z⌋), l)

/-- Byte overload of `Level::isMovingLavaTile` as a state transformer. -/
def isMovingLavaTileM (l : Level) (t : Byte) : Bool × Level :=
  (isMovingLavaTile t, l)

/-- Coordinate overload of `Level::isMovingLavaTile`. -/
def isMovingLavaTileAtM (l : Level) (x y z : Int) : Bool × Level :=
  (isMovingLavaTile (getTile l x y z), l)

/-- Modelled from the spec: `Level::isRenderWaterTile(float,float,float)`,
the render-time water classification on float coordinates, layered on the
same byte classification. -/
def isRenderWaterTileM (l : Level) (x y z : ℚ) : Bool × Level :=
  (isWaterTile (getTile l ⌊x⌋ ⌊y⌋ ⌊z⌋), l)

end Level

/-- A world-space point; the `glm::vec3` floats are modelled as rationals. -/
abbrev Vec3 := ℚ × ℚ × ℚ

/-- The result of `Level::clip`: whether a tile was struck, the entry
parameter along the segment, the hit position, and the face indicator
(axis and side struck). -/
structure AABBPosition where
  hit : Bool
  t : ℚ
  pos : Vec3
  face : Nat

/-- An internal clip candidate record: entry time, face, and the cell. -/
structure ClipHit where
  t : ℚ
  face : Nat
  cell : Coord

namespace Level

/-- Modelled from the spec: the slab interval of segment parameters for
one axis against a unit cell span `[lo, lo+1]`; `none` is a miss on a
degenerate axis, and a degenerate axis inside the slab contributes the
unconstrained sentinel interval.  The boolean records entry through the
high face. -/
def axisRange (s d lo : ℚ) : Option (ℚ × ℚ × Bool) :=
  if d = 0 then
    if lo ≤ s ∧ s ≤ lo + 1 then some (-1, 2, true) else none
  else if 0 < d then some ((lo - s) / d, (lo + 1 - s) / d, false)
  else some ((lo + 1 - s) / d, (lo - s) / d, true)

/-- Modelled from the spec: ray-box entry for one cell — the maximum of
the per-axis entry times against the minimum of the exit times, accepted
when the entry lies in `[0, 1]` before the exit; the face is the axis
achieving the entry time (faces 0/1 = x low/high, 2/3 = y, 4/5 = z). -/
def rayCellHit (sv ev : Vec3) (c : Coord) : Option (ℚ × Nat) :=
  match axisRange sv.1 (ev.1 - sv.1) (c.1 : ℚ),
      axisRange sv.2.1 (ev.2.1 - sv.2.1) (c.2.1 : ℚ),
      axisRange sv.2.2 (ev.2.2 - sv.2.2) (c.2.2 : ℚ) with
  | some (a0, a1, af), some (b0, b1, bf), some (c0, c1, cf) =>
    let tEnter := max a0 (max b0 c0)
    let tExit := min a1 (min b1 c1)
    let face :=
      if tEnter = a0 then (if af then 1 else 0)
      else if tEnter = b0 then (if bf then 3 else 2)
      else (if cf then 5 else 4)
    if 0 ≤ tEnter ∧ tEnter ≤ tExit ∧ tEnter ≤ 1 then some (tEnter, face)
    else none
  | _, _, _ => none

/-- Modelled from the spec: the clip obstacle test for one candidate
cell: only solid tiles block, and a blocking cell yields its entry
record. -/
def clipHitAt (l : Level) (sv ev : Vec3) (c : Coord) : Option ClipHit :=
  if isSolidTile (getTileC l c) then
    match rayCellHit sv ev c with
    | some (t, f) => some ⟨t, f, c⟩
    | none => none
  else none

/-- The selection key of a candidate hit: entry time first, cell index as
the deterministic tie break. -/
def hkey (h : ClipHit) : ℚ ×ₗ ℕ := toLex (h.t, indexC h.cell)

/-- Keep the key-minimal hit of two optional candidates, preferring the
accumulated one on key ties. -/
def pickHit : Option ClipHit → Option ClipHit → Option ClipHit
  | none, o => o
  | some a, none => some a
  | some a, some b => if hkey b < hkey a then some b else some a

/-- The inclusive integer range `[a, b]` as a list. -/
def intRange (a b : Int) : List Int :=
  (List.range (b - a + 1).toNat).map fun i => a + Int.ofNat i

/-- Modelled from the spec: the candidate cells of a clip query — every
in-bounds cell of the integer box spanned by the segment's bounding
region. -/
def candidateCells (sv ev : Vec3) : List Coord :=
  ((intRange ⌊min sv.1 ev.1⌋ ⌊max sv.1 ev.1⌋).flatMap fun x =>
    (intRange ⌊min sv.2.1 ev.2.1⌋ ⌊max sv.2.1 ev.2.1⌋).flatMap fun y =>
      (intRange ⌊min sv.2.2 ev.2.2⌋ ⌊max sv.2.2 ev.2.2⌋).map fun z =>
        ((x, y, z) : Coord)).filter fun c => isInBoundsC c

/-- Drop the first occurrence of a coordinate from a list. -/
def removeFirst (e : Coord) : List Coord → List Coord
  | [] => []
  | c :: cs => if c = e then cs else c :: removeFirst e cs

/-- Modelled from the spec: the `expected` hint is a coordinate to check
first — it affects only the search order of the candidate enumeration. -/
def orderedCands (cands : List Coord) (expected : Option Coord) : List Coord :=
  match expected with
  | some h => if h ∈ cands then h :: removeFirst h cands else cands
  | none => cands

/-- The point at parameter `t` along the clip segment. -/
def pointAt (sv ev : Vec3) (t : ℚ) : Vec3 :=
  (sv.1 + t * (ev.1 - sv.1), sv.2.1 + t * (ev.2.1 - sv.2.1),
    sv.2.2 + t * (ev.2.2 - sv.2.2))

/-- Modelled from the spec: `Level::clip(start, end, expected)` sweeps the
segment against all solid tiles in the candidate region, returning the
earliest (minimum non-negative entry time) hit position and face; the
optional `expected` hint only reorders the candidate scan. -/
def clip (l : Level) (sv ev : Vec3) (expected : Option Coord) : AABBPosition :=
  match (orderedCands (candidateCells sv ev) expected).foldl
      (fun acc c => pickHit acc (clipHitAt l sv ev c)) none with
  | some h => ⟨true, h.t, pointAt sv ev h.t, h.face⟩
  | none => ⟨false, 0, ev, 0⟩

/-- The number of in-bounds air cells, the termination measure of the
flood argument. -/
def airCount (l : Level) : Nat :=
  ((Finset.range VOLUME).filter fun i => l.blocks i = AIR).card

/-- Reachability by the flow rule inside a region `R` from a seed cell:
liquid falls into the region cell below, and spreads sideways into any
horizontally adjacent region cell — once a liquid cell can no longer
fall (its floor is wall or already-filled liquid) the flow rule lets it
spread to every horizontal neighbor. -/
inductive Reach (R : Finset Coord) (seed : Coord) : Coord → Prop
  | seed : Reach R seed seed
  | down {c : Coord} : Reach R seed c → belowC c ∈ R → Reach R seed (belowC c)
  | side {c d : Coord} : Reach R seed c → d ∈ horizNeighbors c → d ∈ R →
      Reach R seed d

/-- The induction invariant of the flood argument for a region `R`:
region cells are in bounds; outside the region the in-bounds grid is
solid wall; region cells hold air or water; no lava exists; settled water
has no floodable neighbor; and every flowing-water cell with a floodable
neighbor is scheduled — in the queue portion `rem` still to be drained
this tick, or in the level's accumulated queue. -/
structure FloodInv (R : Finset Coord) (l : Level) (rem : List Coord) : Prop where
  rin : ∀ c ∈ R, isInBoundsC c = true
  wall : ∀ c, isInBoundsC c = true → c ∉ R → isSolidTile (getTileC l c) = true
  rcell : ∀ c ∈ R, getTileC l c = AIR ∨ isWaterTile (getTileC l c) = true
  noLava : ∀ c, isLavaTile (getTileC l c) = false
  still : ∀ c, getTileC l c = STILL_WATER → floodTargets l c FLOWING_WATER = []
  cover : ∀ c, getTileC l c = FLOWING_WATER →
    floodTargets l c FLOWING_WATER = [] ∨ c ∈ rem ∨ c ∈ l.updates

/-- An enclosed three-cell region sealed in rock — the flowing-water seed
at (5,5,5), an empty cell below it and an empty cell beside it — with
the seed queued: a flood scenario that falls, then spreads sideways over
its own water. -/
def sealedPool : Level :=
  ⟨fun i => if i = index 5 5 5 then FLOWING_WATER
    else if i = index 5 4 5 then AIR
    else if i = index 6 5 5 then AIR else ROCK,
    fun _ => -1, 32, 32, [(5, 5, 5)]⟩

end Level

/-- The tick-rate timer of the driver; `elapsedTicks` is the number of
whole ticks elapsed since the previous frame (`Timer.h` collaborator). -/
structure Timer where
  elapsedTicks : Nat

/-- The driver state of `Game.cpp` relevant to the world model: the level,
the timer, and the frame counter. -/
structure Game where
  level : Level
  timer : Timer
  frameRate : Nat

/-- Everything the render pass of `Game::render` observes from the grid:
render tiles, brightness, and lit queries, all against one level state. -/
structure FrameView where
  renderTiles : Int → Int → Int → Byte
  brightness : Int → Int → Int → ℚ
  litQuery : Int → Int → Int → Bool

/-- The grid observations rendering makes against a level state. -/
def renderView (l : Level) : FrameView :=
  ⟨fun x y z => Level.getRenderTile l x y z,
    fun x y z => Level.getTileBrightness l x y z,
    fun x y z => Level.isTileLit l x y z⟩

/-- One iteration of the per-frame tick loop of `Game::render`; of the
subsystems ticked there only the level belongs to the specified core. -/
def Game.tickOnce (g : Game) : Game := { g with level := Level.tick g.level }

/-- Embedded from `Game.cpp`: `Game::render` first runs the tick loop
`for (int i = 0; i < timer.elapsedTicks; i++) { ... level.tick(); ... }`
and only then renders, reading the grid of the post-loop state. -/
def Game.render (g : Game) : Game × FrameView :=
  let g1 := Game.tickOnce^[g.timer.elapsedTicks] g
  ({ g1 with frameRate := g1.frameRate + 1 }, renderView g1.level)

/-- Embedded from `Game.cpp` (F3 handler): one shift iteration of the
CRC32 loop, `msb = crc >> 31; crc <<= 1; crc ^= (0 - msb) & 0x04C11DB7`,
in 32-bit unsigned arithmetic. -/
def crcShift (crc : Nat) : Nat :=
  ((crc <<< 1) % 2 ^ 32) ^^^ ((2 ^ 32 - (crc >>> 31)) % 2 ^ 32 &&& 0x04C11DB7)

/-- Embedded from `Game.cpp`: one byte step of the CRC32 loop,
`crc ^= (data[i] << 24)` followed by eight shift iterations. -/
def crcByte (crc : Nat) (b : Byte) : Nat := crcShift^[8] (crc ^^^ (b <<< 24))

/-- Embedded from `Game.cpp`: the F3 debug checksum over a byte sequence,
initial value 0xFFFFFFFF, no final XOR. -/
def crc32 (data : List Byte) : Nat := data.foldl crcByte 0xFFFFFFFF

/-- The claim's description of one CRC shift: multiply by two modulo
2^32, XORing in the generator polynomial when the MSB was set. -/
def crcShiftClaim (crc : Nat) : Nat :=
  if 2 ^ 31 ≤ crc then ((2 * crc) % 2 ^ 32) ^^^ 0x04C11DB7
  else (2 * crc) % 2 ^ 32

/-- The claim's description of one CRC byte step: the byte XORed into the
top 8 bits, then eight MSB-first shift iterations. -/
def crcByteClaim (crc : Nat) (b : Byte) : Nat :=
  crcShiftClaim^[8] (crc ^^^ b * 2 ^ 24)

/-- The claim's description of the whole checksum. -/
def crc32Claim (data : List Byte) : Nat := data.foldl crcByteClaim 0xFFFFFFFF

/-- The raw contents of the flat blocks array, as hashed by the F3
handler (`level.blocks.get()`, length `WIDTH * HEIGHT * DEPTH`). -/
@[irreducible] def Game.blockData (g : Game) : List Byte :=
  (List.range Level.VOLUME).map g.level.blocks

/-- Embedded from `Game.cpp`: the F3 key handler computes the CRC32 of
the blocks array and logs it; it mutates no game state. -/
def Game.inputF3 (g : Game) : Game × Nat := (g, crc32 (Game.blockData g))

/-- A minimal driver state over the all-air level. -/
def gameA : Game := ⟨Level.flatAir, ⟨0⟩, 0⟩

namespace Level

/-- Key facts about the linearization, shared by the bounds proofs. -/
theorem index_lt_volume {x y z : Int} (h : isInBounds x y z = true) :
    index x y z < VOLUME := by
  simp only [isInBounds, Bool.and_eq_true, decide_eq_true_eq] at h
  obtain ⟨⟨⟨⟨⟨hx0, hx1⟩, hy0⟩, hy1⟩, hz0⟩, hz1⟩ := h
  have hx : x.toNat < WIDTH := by simp [WIDTH] at hx1 ⊢; omega
  have hy : y.toNat < HEIGHT := by simp [HEIGHT] at hy1 ⊢; omega
  have hz : z.toNat < DEPTH := by simp [DEPTH] at hz1 ⊢; omega
  simp only [index, VOLUME, WIDTH, HEIGHT, DEPTH] at *
  omega

/-- The linearization is injective on in-bounds coordinates. -/
theorem index_inj {x y z x' y' z' : Int} (h : isInBounds x y z = true)
    (h' : isInBounds x' y' z' = true) (he : index x y z = index x' y' z') :
    x = x' ∧ y = y' ∧ z = z' := by
  simp only [isInBounds, Bool.and_eq_true, decide_eq_true_eq] at h h'
  obtain ⟨⟨⟨⟨⟨hx0, hx1⟩, hy0⟩, hy1⟩, hz0⟩, hz1⟩ := h
  obtain ⟨⟨⟨⟨⟨hx0', hx1'⟩, hy0'⟩, hy1'⟩, hz0'⟩, hz1'⟩ := h'
  simp only [index, WIDTH, HEIGHT, DEPTH] at he hx1 hy1 hz1 hx1' hy1' hz1'
  omega

/-- The column linearization is injective on valid columns. -/
theorem colIndex_inj {x z x' z' : Int}
    (hx : 0 ≤ x ∧ x < (WIDTH : Int)) (hz : 0 ≤ z ∧ z < (DEPTH : Int))
    (hx' : 0 ≤ x' ∧ x' < (WIDTH : Int)) (hz' : 0 ≤ z' ∧ z' < (DEPTH : Int))
    (he : colIndex x z = colIndex x' z') : x = x' ∧ z = z' := by
  simp only [colIndex, WIDTH, DEPTH] at he hx hz hx' hz'
  omega

/-- Reading back an in-bounds write at the written cell. -/
theorem getTile_writeTile_self {l : Level} {x y z : Int} {t : Byte}
    (h : isInBounds x y z = true) : getTile (writeTile l x y z t) x y z = t := by
  simp [getTile, writeTile, h]

/-- An in-bounds write does not disturb any other cell, and an
out-of-bounds read still returns the air sentinel. -/
theorem getTile_writeTile_other {l : Level} {x y z x' y' z' : Int} {t : Byte}
    (hne : ¬(x' = x ∧ y' = y ∧ z' = z)) :
    getTile (writeTile l x y z t) x' y' z' = getTile l x' y' z' := by
  by_cases h : isInBounds x y z = true
  · by_cases h' : isInBounds x' y' z' = true
    · have hidx : index x' y' z' ≠ index x y z := by
        intro he
        exact hne (index_inj h' h he)
      simp [getTile, writeTile, h, h', Function.update_noteq hidx]
    · simp [getTile, writeTile, h, h']
  · simp [writeTile, h]

/-- A write never touches the update queue. -/
theorem writeTile_updates (l : Level) (x y z : Int) (t : Byte) :
    (writeTile l x y z t).updates = l.updates := by
  by_cases h : isInBounds x y z = true <;> simp [writeTile, h]

/-- A write never touches the metadata scalars. -/
theorem writeTile_meta (l : Level) (x y z : Int) (t : Byte) :
    (writeTile l x y z t).groundLevel = l.groundLevel ∧
      (writeTile l x y z t).waterLevel = l.waterLevel := by
  by_cases h : isInBounds x y z = true <;> simp [writeTile, h]

end Level

namespace Level

/-- C1: for every in-bounds coordinate and tile-type byte `T`,
`setTile(x,y,z,T)` followed by `getTile(x,y,z)` with no intervening
mutation returns exactly `T`. -/
theorem c1_setTile_getTile (l : Level) (x y z : Int) (t : Byte) (mode : Bool)
    (hin : isInBounds x y z = true) (ht : t < 256) :
    getTile (setTile l x y z t mode) x y z = t :=
  getTile_writeTile_self hin

/-- C1 witness at the concrete cell (3, 10, 5) and byte 17. -/
theorem c1_setTile_getTile_witness :
    getTile (setTile ⟨fun _ => AIR, fun _ => -1, 32, 32, []⟩ 3 10 5 17 false)
      3 10 5 = 17 :=
  c1_setTile_getTile ⟨fun _ => AIR, fun _ => -1, 32, 32, []⟩ 3 10 5 17 false
    (by decide) (by decide)

/-- C2: for every out-of-bounds coordinate, `getTile` returns the air
sentinel, `setTile` leaves the level (in particular the entire `blocks`
array) unchanged, repeated invalid writes included, and no error is
raised (both operations are total). -/
theorem c2_out_of_bounds (l : Level) (x y z : Int) (t t' : Byte)
    (mode mode' : Bool) (hout : ¬ isInBounds x y z = true) :
    getTile l x y z = AIR ∧ setTile l x y z t mode = l ∧
      setTile (setTile l x y z t mode) x y z t' mode' = l := by
  refine ⟨by simp [getTile, hout], ?_, ?_⟩ <;> simp [setTile, writeTile, hout]

/-- C2 witness at the concrete out-of-bounds coordinate (128, 2, 3). -/
theorem c2_out_of_bounds_witness :
    getTile ⟨fun _ => ROCK, fun _ => -1, 32, 32, []⟩ 128 2 3 = AIR ∧
      setTile ⟨fun _ => ROCK, fun _ => -1, 32, 32, []⟩ 128 2 3 7 false =
        ⟨fun _ => ROCK, fun _ => -1, 32, 32, []⟩ ∧
      setTile (setTile ⟨fun _ => ROCK, fun _ => -1, 32, 32, []⟩ 128 2 3 7 false)
          128 2 3 9 true = ⟨fun _ => ROCK, fun _ => -1, 32, 32, []⟩ :=
  c2_out_of_bounds ⟨fun _ => ROCK, fun _ => -1, 32, 32, []⟩ 128 2 3 7 9
    false true (by decide)

/-- C3: for every in-bounds coordinate and byte `T`,
`setTileWithNeighborChange` returns `false` and leaves the level
unchanged when the cell already holds `T`, and returns `true` with the
stored value actually changed to `T` otherwise. -/
theorem c3_setTileWithNeighborChange (l : Level) (x y z : Int) (t : Byte)
    (mode : Bool) (hin : isInBounds x y z = true) :
    (getTile l x y z = t →
        setTileWithNeighborChange l x y z t mode = (false, l)) ∧
      (getTile l x y z ≠ t →
        (setTileWithNeighborChange l x y z t mode).1 = true ∧
          getTile (setTileWithNeighborChange l x y z t mode).2 x y z = t) := by
  constructor
  · intro heq
    simp only [getTile, hin, if_true] at heq
    simp [setTileWithNeighborChange, hin, heq]
  · intro hne
    simp only [getTile, hin, if_true] at hne
    have hb : (l.blocks (index x y z) == t) = false := by
      simpa using hne
    have h2 : (writeTile l x y z t).blocks (index x y z) = t := by
      simpa [getTile, hin] using
        getTile_writeTile_self (l := l) (t := t) (x := x) (y := y) (z := z) hin
    simp [setTileWithNeighborChange, hin, hb, getTile, h2]

/-- C3 witness: writing byte 5 over air at (2, 3, 4) changes the cell and
returns `true`; re-writing air over air returns `false`. -/
theorem c3_setTileWithNeighborChange_witness :
    (getTile ⟨fun _ => AIR, fun _ => -1, 32, 32, []⟩ 2 3 4 ≠ 5 →
        (setTileWithNeighborChange ⟨fun _ => AIR, fun _ => -1, 32, 32, []⟩
            2 3 4 5 false).1 = true ∧
          getTile (setTileWithNeighborChange
            ⟨fun _ => AIR, fun _ => -1, 32, 32, []⟩ 2 3 4 5 false).2 2 3 4 = 5) ∧
      (getTile ⟨fun _ => AIR, fun _ => -1, 32, 32, []⟩ 2 3 4 = AIR →
        setTileWithNeighborChange ⟨fun _ => AIR, fun _ => -1, 32, 32, []⟩
          2 3 4 AIR true = (false, ⟨fun _ => AIR, fun _ => -1, 32, 32, []⟩)) :=
  ⟨(c3_setTileWithNeighborChange ⟨fun _ => AIR, fun _ => -1, 32, 32, []⟩
      2 3 4 5 false (by decide)).2,
    (c3_setTileWithNeighborChange ⟨fun _ => AIR, fun _ => -1, 32, 32, []⟩
      2 3 4 AIR true (by decide)).1⟩

end Level

namespace Level

/-- C9: the `(x,y,z) → linear offset` mapping is total and bijective
between valid coordinates and `[0, WIDTH*HEIGHT*DEPTH)`: the round trip
coordinate→index→coordinate is the identity, the reverse round trip is
the identity on the index range, and the read and write paths address the
flat array through this same linearization. -/
theorem c9_index_bijective (x y z : Int) (i : Nat) (l : Level) (t : Byte)
    (mode : Bool) (hin : isInBounds x y z = true) (hi : i < VOLUME) :
    coordOfIndex (index x y z) = (x, y, z) ∧ index x y z < VOLUME ∧
      indexC (coordOfIndex i) = i ∧ isInBoundsC (coordOfIndex i) = true ∧
      getTile l x y z = l.blocks (index x y z) ∧
      (setTile l x y z t mode).blocks = Function.update l.blocks (index x y z) t := by
  have hb := hin
  simp only [isInBounds, Bool.and_eq_true, decide_eq_true_eq] at hb
  obtain ⟨⟨⟨⟨⟨hx0, hx1⟩, hy0⟩, hy1⟩, hz0⟩, hz1⟩ := hb
  refine ⟨?_, index_lt_volume hin, ?_, ?_, ?_, ?_⟩
  · simp only [coordOfIndex, index, WIDTH, HEIGHT, DEPTH, Prod.mk.injEq,
      Int.ofNat_eq_coe]
    simp only [WIDTH, HEIGHT, DEPTH] at hx1 hy1 hz1
    refine ⟨?_, ?_, ?_⟩ <;> omega
  · simp only [indexC, coordOfIndex, index, VOLUME, WIDTH, HEIGHT, DEPTH,
      Int.ofNat_eq_coe] at hi ⊢
    omega
  · simp only [isInBoundsC, coordOfIndex, isInBounds, VOLUME, WIDTH, HEIGHT,
      DEPTH, Bool.and_eq_true, decide_eq_true_eq, Int.ofNat_eq_coe] at hi ⊢
    omega
  · simp [getTile, hin]
  · simp [setTile, writeTile, hin]

/-- C9 witness at the concrete coordinate (3, 4, 5) and index 77. -/
theorem c9_index_bijective_witness :
    coordOfIndex (index 3 4 5) = (3, 4, 5) ∧ index 3 4 5 < VOLUME ∧
      indexC (coordOfIndex 77) = 77 ∧ isInBoundsC (coordOfIndex 77) = true ∧
      getTile flatAir 3 4 5 = flatAir.blocks (index 3 4 5) ∧
      (setTile flatAir 3 4 5 9 false).blocks =
        Function.update flatAir.blocks (index 3 4 5) 9 :=
  c9_index_bijective 3 4 5 77 flatAir 9 false (by decide) (by decide)

/-- Pointwise-equal predicates find the same first witness. -/
theorem find?_congruence {α : Type} (p q : α → Bool) :
    ∀ l : List α, (∀ a ∈ l, p a = q a) → l.find? p = l.find? q
  | [], _ => rfl
  | a :: l, h => by
    have ha := h a (List.mem_cons_self a l)
    by_cases hp : p a = true
    · rw [List.find?_cons_of_pos _ hp, List.find?_cons_of_pos _ (ha ▸ hp)]
    · rw [List.find?_cons_of_neg _ hp, List.find?_cons_of_neg _ (ha ▸ hp)]
      exact find?_congruence p q l fun b hb => h b (List.mem_cons_of_mem a hb)

/-- A column's light depth only depends on the bytes of that column. -/
theorem columnLightDepth_congr {b b' : Nat → Byte} {x z : Int}
    (h : ∀ y : Nat, y < HEIGHT →
      b' (index x (Int.ofNat y) z) = b (index x (Int.ofNat y) z)) :
    columnLightDepth b' x z = columnLightDepth b x z := by
  unfold columnLightDepth
  rw [find?_congruence _ _ _ (fun a ha => ?_)]
  have : a < HEIGHT := List.mem_range.mp (List.mem_reverse.mp ha)
  rw [h a this]

/-- Writing a cell re-establishes the light contract: the mutated column
is recomputed eagerly and no other column's bytes change. -/
theorem lightInv_writeTile {l : Level} (inv : LightInv l) (x y z : Int)
    (t : Byte) : LightInv (writeTile l x y z t) := by
  by_cases hin : isInBounds x y z = true
  · intro x' z' hx0' hx1' hz0' hz1'
    have hb := hin
    simp only [isInBounds, Bool.and_eq_true, decide_eq_true_eq] at hb
    obtain ⟨⟨⟨⟨⟨hx0, hx1⟩, hy0⟩, hy1⟩, hz0⟩, hz1⟩ := hb
    by_cases hcol : colIndex x' z' = colIndex x z
    · obtain ⟨hxe, hze⟩ := colIndex_inj ⟨hx0', hx1'⟩ ⟨hz0', hz1'⟩
        ⟨hx0, hx1⟩ ⟨hz0, hz1⟩ hcol
      subst hxe; subst hze
      simp [writeTile, hin]
    · simp only [writeTile, hin, if_true]
      rw [Function.update_noteq hcol]
      have hcong : columnLightDepth (Function.update l.blocks (index x y z) t)
          x' z' = columnLightDepth l.blocks x' z' := by
        refine columnLightDepth_congr fun y' hy' => ?_
        refine Function.update_noteq (fun he => ?_) t l.blocks
        have hin' : isInBounds x' (Int.ofNat y') z' = true := by
          simp only [isInBounds, Bool.and_eq_true, decide_eq_true_eq,
            Int.ofNat_eq_coe, HEIGHT] at hy' ⊢
          exact ⟨⟨⟨⟨⟨hx0', hx1'⟩, by omega⟩, by omega⟩, hz0'⟩, hz1'⟩
        obtain ⟨hxe, -, hze⟩ := index_inj hin' hin he
        exact hcol (by rw [hxe, hze])
      rw [hcong, inv x' z' hx0' hx1' hz0' hz1']
  · simpa [writeTile, hin] using inv

/-- A fold preserves any invariant its step preserves. -/
theorem foldl_preserves {α β : Type} {P : α → Prop} {f : α → β → α}
    (hf : ∀ a b, P a → P (f a b)) :
    ∀ (ds : List β) (a : α), P a → P (ds.foldl f a)
  | [], _, h => h
  | d :: ds, a, h => foldl_preserves hf ds (f a d) (hf a d h)

/-- The light contract ignores the update queue. -/
theorem lightInv_updatesSet {l : Level} (inv : LightInv l) (u : List Coord) :
    LightInv { l with updates := u } := inv

/-- The light contract is preserved by a packed-coordinate write. -/
theorem lightInv_writeTileC {l : Level} (inv : LightInv l) (c : Coord)
    (t : Byte) : LightInv (writeTileC l c t) :=
  lightInv_writeTile inv c.1 c.2.1 c.2.2 t

/-- The light contract is preserved by a flood step. -/
theorem lightInv_floodInto {l : Level} (inv : LightInv l) (t : Byte)
    (d : Coord) : LightInv (floodInto l t d) := by
  unfold floodInto
  by_cases hv : isLiquidTile (floodResult l d t) = true
  · simpa [hv] using
      lightInv_updatesSet (lightInv_writeTileC inv d (floodResult l d t)) _
  · simpa [hv] using lightInv_writeTileC inv d (floodResult l d t)

/-- The light contract is preserved by re-evaluating one queue entry. -/
theorem lightInv_processEntry {l : Level} (inv : LightInv l) (c : Coord) :
    LightInv (processEntry l c) := by
  unfold processEntry
  by_cases hm : (isMovingWaterTile (getTileC l c) ||
      isMovingLavaTile (getTileC l c)) = true
  · by_cases he : (floodTargets l c (getTileC l c)).isEmpty = true
    · simpa [hm, he] using lightInv_writeTileC inv c (stillOf (getTileC l c))
    · simp only [hm, he, if_true, Bool.false_eq_true, if_false]
      exact lightInv_updatesSet
        (foldl_preserves (P := LightInv)
          (f := fun acc d => floodInto acc (getTileC l c) d)
          (fun a d h => lightInv_floodInto h (getTileC l c) d) _ _ inv) _
  · simpa [hm] using inv

/-- The light contract is preserved by a whole tick. -/
theorem lightInv_tick {l : Level} (inv : LightInv l) : LightInv (tick l) := by
  unfold tick
  exact foldl_preserves (P := LightInv) (f := processEntry)
    (fun a c h => lightInv_processEntry h c) l.updates
    { l with updates := [] } (lightInv_updatesSet inv [])

/-- The all-air column has no blocker: its depth is the sentinel. -/
theorem columnLightDepth_flatAir (x z : Int) :
    columnLightDepth flatAir.blocks x z = -1 := by
  have h : (List.range HEIGHT).reverse.find?
      (fun y => isSolidTile (flatAir.blocks (index x (Int.ofNat y) z))) = none := by
    rw [List.find?_eq_none]
    intro a _
    show ¬ (isSolidTile AIR = true)
    decide
  simp only [columnLightDepth, h]

/-- The all-air level satisfies the light contract. -/
theorem lightInv_flatAir : LightInv flatAir := by
  intro x z _ _ _ _
  rw [columnLightDepth_flatAir]
  rfl

end Level

namespace Level

/-- C4: the light contract — every valid column's stored `lightDepths`
entry equals the topmost y holding a light-blocking tile in that column,
or the below-grid sentinel when the column has no blocker — is preserved
by every tile mutation (`setTile`, both neighbor-change variants, and the
tick-driven flood writes), and under it the `isTileLit` observation
coincides with the spec depth comparison. -/
theorem c4_light_depth_invariant (l : Level) (x y z : Int) (t : Byte)
    (mode : Bool) (inv : LightInv l) :
    LightInv (setTile l x y z t mode) ∧
      LightInv (setTileWithNeighborChange l x y z t mode).2 ∧
      LightInv (setTileWithNoNeighborChange l x y z t mode).2 ∧
      LightInv (tick l) ∧
      ∀ x' y' z' : Int, isInBounds x' y' z' = true →
        isTileLit (setTile l x y z t mode) x' y' z' =
          decide (columnLightDepth (setTile l x y z t mode).blocks x' z' ≤ y') := by
  have hset : LightInv (setTile l x y z t mode) := lightInv_writeTile inv x y z t
  refine ⟨hset, ?_, ?_, lightInv_tick inv, ?_⟩
  · unfold setTileWithNeighborChange
    by_cases hin : isInBounds x y z = true
    · by_cases heq : (l.blocks (index x y z) == t) = true
      · simpa [hin, heq] using inv
      · simpa [hin, heq] using
          lightInv_updatesSet (lightInv_writeTile inv x y z t) _
    · simpa [hin] using inv
  · unfold setTileWithNoNeighborChange
    by_cases hin : isInBounds x y z = true
    · by_cases heq : (l.blocks (index x y z) == t) = true
      · simpa [hin, heq] using inv
      · simpa [hin, heq] using
          lightInv_updatesSet (lightInv_writeTile inv x y z t) _
    · simpa [hin] using inv
  · intro x' y' z' hin'
    have hb := hin'
    simp only [isInBounds, Bool.and_eq_true, decide_eq_true_eq] at hb
    obtain ⟨⟨⟨⟨⟨hx0, hx1⟩, hy0⟩, hy1⟩, hz0⟩, hz1⟩ := hb
    rw [isTileLit, if_pos hin', hset x' z' hx0 hx1 hz0 hz1]

/-- C4 witness: the all-air level satisfies the contract, and placing a
rock at (1, 2, 3) preserves it. -/
theorem c4_light_depth_invariant_witness :
    LightInv (setTile flatAir 1 2 3 ROCK false) ∧
      LightInv (setTileWithNeighborChange flatAir 1 2 3 ROCK false).2 ∧
      LightInv (setTileWithNoNeighborChange flatAir 1 2 3 ROCK false).2 ∧
      LightInv (tick flatAir) ∧
      ∀ x' y' z' : Int, isInBounds x' y' z' = true →
        isTileLit (setTile flatAir 1 2 3 ROCK false) x' y' z' =
          decide (columnLightDepth (setTile flatAir 1 2 3 ROCK false).blocks
            x' z' ≤ y') :=
  c4_light_depth_invariant flatAir 1 2 3 ROCK false lightInv_flatAir

/-- C7: every tile-classification predicate, in both its byte-based and
its coordinate-based (including float-coordinate) overload, is a pure
query: it returns its classification and leaves the level state — blocks,
light depths, metadata and update queue — exactly as it found it. -/
theorem c7_classification_pure (l : Level) (t : Byte) (x y z : Int)
    (a b c : ℚ) :
    ((isAirTileM l t).2 = l ∧ (isAirTileAtM l x y z).2 = l ∧
      (isWaterTileM l t).2 = l ∧ (isWaterTileAtM l x y z).2 = l ∧
      (isMovingWaterTileM l t).2 = l ∧ (isMovingWaterTileAtM l x y z).2 = l ∧
      (isLavaTileM l t).2 = l ∧ (isLavaTileAtM l x y z).2 = l ∧
      (isLavaTileFloatM l a b c).2 = l ∧ (isMovingLavaTileM l t).2 = l ∧
      (isMovingLavaTileAtM l x y z).2 = l ∧
      (isRenderWaterTileM l a b c).2 = l) ∧
    (isAirTileM l t).1 = isAirTile t ∧
      (isWaterTileAtM l x y z).1 = isWaterTile (getTile l x y z) ∧
      (isMovingWaterTileAtM l x y z).1 = isMovingWaterTile (getTile l x y z) ∧
      (isLavaTileAtM l x y z).1 = isLavaTile (getTile l x y z) ∧
      (isRenderWaterTileM l a b c).1 = isWaterTile (getTile l ⌊a⌋ ⌊b⌋ ⌊c⌋) :=
  ⟨⟨rfl, rfl, rfl, rfl, rfl, rfl, rfl, rfl, rfl, rfl, rfl, rfl⟩,
    rfl, rfl, rfl, rfl, rfl⟩

end Level

/-- The level component of the iterated game tick loop is the iterated
level tick. -/
theorem tickOnce_iterate_level (n : Nat) (g : Game) :
    (Game.tickOnce^[n] g).level = Level.tick^[n] g.level := by
  induction n generalizing g with
  | zero => rfl
  | succ n ih =>
    rw [Function.iterate_succ_apply, Function.iterate_succ_apply]
    exact (ih (Game.tickOnce g)).trans rfl

/-- C8: per frame the driver runs the world tick exactly `elapsedTicks`
times (each draining the update scheduler once) before any rendering of
that frame, so every grid read issued during rendering observes the
fully settled post-tick level state. -/
theorem c8_tick_loop_before_render (g : Game) :
    (Game.render g).1.level = Level.tick^[g.timer.elapsedTicks] g.level ∧
      (Game.render g).2 = renderView ((Game.render g).1.level) := by
  constructor
  · show (Game.tickOnce^[g.timer.elapsedTicks] g).level = _
    exact tickOnce_iterate_level _ g
  · rfl

/-- One source CRC shift agrees with the claim's description and stays a
32-bit value. -/
theorem crcShift_spec {c : Nat} (hc : c < 2 ^ 32) :
    crcShift c = crcShiftClaim c ∧ crcShift c < 2 ^ 32 := by
  have hshl : c <<< 1 = 2 * c := by
    rw [Nat.shiftLeft_eq]; ring
  have hdiv : c >>> 31 = c / 2 ^ 31 := Nat.shiftRight_eq_div_pow c 31
  by_cases h : 2 ^ 31 ≤ c
  · have hm : c >>> 31 = 1 := by rw [hdiv]; omega
    have hsub : (2 ^ 32 - 1) % 2 ^ 32 = 2 ^ 32 - 1 := Nat.mod_eq_of_lt (by omega)
    have hmask : (2 ^ 32 - 1) &&& 0x04C11DB7 = 0x04C11DB7 := by
      rw [Nat.and_comm]
      exact Nat.and_pow_two_sub_one_of_lt_two_pow (by norm_num)
    constructor
    · rw [crcShift, crcShiftClaim, hm, hsub, hmask, hshl, if_pos h]
    · exact Nat.xor_lt_two_pow (Nat.mod_lt _ (by norm_num)) (by
        rw [hm, hsub, hmask]; norm_num)
  · have hm : c >>> 31 = 0 := by rw [hdiv]; omega
    constructor
    · rw [crcShift, crcShiftClaim, hm, Nat.sub_zero, Nat.mod_self,
        Nat.zero_and, Nat.xor_zero, hshl, if_neg h]
    · rw [crcShift, hm, Nat.sub_zero, Nat.mod_self, Nat.zero_and, Nat.xor_zero]
      exact Nat.mod_lt _ (by norm_num)

/-- Iterated source CRC shifts agree with the claim's description. -/
theorem crcShift_iterate_spec (n : Nat) :
    ∀ {c : Nat}, c < 2 ^ 32 →
      crcShift^[n] c = crcShiftClaim^[n] c ∧ crcShift^[n] c < 2 ^ 32 := by
  induction n with
  | zero => exact fun hc => ⟨rfl, hc⟩
  | succ n ih =>
    intro c hc
    rw [Function.iterate_succ_apply, Function.iterate_succ_apply]
    obtain ⟨he, hb⟩ := crcShift_spec hc
    obtain ⟨h1, h2⟩ := ih hb
    exact ⟨h1.trans (by rw [he]), h2⟩

/-- One CRC byte step agrees with the claim's description. -/
theorem crcByte_spec {c b : Nat} (hc : c < 2 ^ 32) (hb : b < 256) :
    crcByte c b = crcByteClaim c b ∧ crcByte c b < 2 ^ 32 := by
  have he : c ^^^ (b <<< 24) = c ^^^ b * 2 ^ 24 := by rw [Nat.shiftLeft_eq]
  have hx : c ^^^ (b <<< 24) < 2 ^ 32 := by
    refine Nat.xor_lt_two_pow hc ?_
    rw [Nat.shiftLeft_eq]
    omega
  obtain ⟨h1, h2⟩ := crcShift_iterate_spec 8 hx
  refine ⟨?_, h2⟩
  rw [crcByte, crcByteClaim, h1, he]

/-- The full checksum agrees with the claim's description bytewise. -/
theorem crc32_spec {data : List Byte} (hd : ∀ b ∈ data, b < 256) :
    crc32 data = crc32Claim data ∧ crc32 data < 2 ^ 32 := by
  rw [crc32, crc32Claim]
  suffices h : ∀ (ds : List Byte) (c : Nat), (∀ b ∈ ds, b < 256) →
      c < 2 ^ 32 →
      ds.foldl crcByte c = ds.foldl crcByteClaim c ∧
        ds.foldl crcByte c < 2 ^ 32 by
    exact h data 0xFFFFFFFF hd (by norm_num)
  intro ds
  induction ds with
  | nil =>
    intro c _ hc
    rw [List.foldl_nil, List.foldl_nil]
    exact ⟨rfl, hc⟩
  | cons b ds ih =>
    intro c hall hc
    obtain ⟨h1, h2⟩ := crcByte_spec hc (hall b (List.mem_cons_self b ds))
    simp only [List.foldl_cons]
    obtain ⟨h3, h4⟩ := ih (crcByte c b)
      (fun e he => hall e (List.mem_cons_of_mem b he)) h2
    exact ⟨h3.trans (by rw [h1]), h4⟩

/-- C10: the F3 debug checksum is a pure, deterministic function of the
blocks array: the handler returns the game state untouched together with
the CRC32 of the raw block bytes, and that CRC32 is exactly the
MSB-first, generator 0x04C11DB7, initial value 0xFFFFFFFF, no-final-XOR
computation modulo 2^32 described by the claim. -/
theorem c10_crc32_checksum (g : Game) (data : List Byte)
    (hd : ∀ b ∈ data, b < 256) :
    (Game.inputF3 g).1 = g ∧
      (Game.inputF3 g).2 = crc32 (Game.blockData g) ∧
      crc32 data = crc32Claim data ∧ crc32 data < 2 ^ 32 :=
  ⟨rfl, rfl, (crc32_spec hd).1, (crc32_spec hd).2⟩

namespace Level

/-- Folding against a missing candidate changes nothing. -/
theorem pickHit_none_right (z : Option ClipHit) : pickHit z none = z := by
  cases z <;> rfl

/-- A candidate hit records its own cell. -/
theorem clipHitAt_cell {l : Level} {sv ev : Vec3} {c : Coord} {h : ClipHit}
    (he : clipHitAt l sv ev c = some h) : h.cell = c := by
  unfold clipHitAt at he
  split at he
  · split at he
    · injection he with he1
      rw [← he1]
    · exact absurd he (by simp)
  · exact absurd he (by simp)

/-- Key-minimal selection is insensitive to the order of two key-distinct
candidates. -/
theorem pickHit_some_comm {a b : ClipHit} (hne : hkey a ≠ hkey b)
    (z : Option ClipHit) :
    pickHit (pickHit z (some a)) (some b) =
      pickHit (pickHit z (some b)) (some a) := by
  cases z with
  | none =>
    show pickHit (some a) (some b) = pickHit (some b) (some a)
    rcases lt_trichotomy (hkey a) (hkey b) with h | h | h
    · have h1 : ¬ hkey b < hkey a := lt_asymm h
      simp [pickHit, h, h1]
    · exact absurd h hne
    · have h1 : ¬ hkey a < hkey b := lt_asymm h
      simp [pickHit, h, h1]
  | some c =>
    by_cases h1 : hkey a < hkey c <;> by_cases h2 : hkey b < hkey c
    · rcases lt_trichotomy (hkey a) (hkey b) with h | h | h
      · have hba : ¬ hkey b < hkey a := lt_asymm h
        simp [pickHit, h1, h2, h, hba]
      · exact absurd h hne
      · have hab : ¬ hkey a < hkey b := lt_asymm h
        simp [pickHit, h1, h2, h, hab]
    · have hab : hkey a < hkey b := lt_of_lt_of_le h1 (le_of_not_lt h2)
      have hba : ¬ hkey b < hkey a := lt_asymm hab
      simp [pickHit, h1, h2, hba]
    · have hba : hkey b < hkey a := lt_of_lt_of_le h2 (le_of_not_lt h1)
      have hab : ¬ hkey a < hkey b := lt_asymm hba
      simp [pickHit, h1, h2, hab]
    · simp [pickHit, h1, h2]

/-- Moving a member to the front is a permutation. -/
theorem perm_cons_removeFirst {a : Coord} :
    ∀ {l : List Coord}, a ∈ l → l.Perm (a :: removeFirst a l) := by
  intro l
  induction l with
  | nil => intro h; cases h
  | cons b l ih =>
    intro h
    by_cases hb : b = a
    · subst hb
      rw [removeFirst, if_pos rfl]
    · rw [removeFirst, if_neg hb]
      have hmem : a ∈ l := by
        rcases List.mem_cons.mp h with h1 | h1
        · exact absurd h1.symm hb
        · exact h1
      exact ((ih hmem).cons b).trans (List.Perm.swap a b _)

/-- Dropping an element only removes it. -/
theorem mem_of_mem_removeFirst {c e : Coord} :
    ∀ {l : List Coord}, c ∈ removeFirst e l → c ∈ l := by
  intro l
  induction l with
  | nil => intro h; exact absurd h (List.not_mem_nil c)
  | cons b l ih =>
    intro h
    rw [removeFirst] at h
    by_cases hb : b = e
    · rw [if_pos hb] at h
      exact List.mem_cons_of_mem b h
    · rw [if_neg hb] at h
      rcases List.mem_cons.mp h with h1 | h1
      · exact h1 ▸ List.mem_cons_self b l
      · exact List.mem_cons_of_mem b (ih h1)

/-- The clip fold is insensitive to permutations of an in-bounds
candidate list. -/
theorem clip_fold_perm (l : Level) (sv ev : Vec3) {l1 l2 : List Coord}
    (hp : l1.Perm l2) (hin : ∀ c ∈ l1, isInBoundsC c = true) :
    l1.foldl (fun acc c => pickHit acc (clipHitAt l sv ev c)) none =
      l2.foldl (fun acc c => pickHit acc (clipHitAt l sv ev c)) none := by
  refine hp.foldl_eq' ?_ none
  intro x hx y hy z
  cases hhx : clipHitAt l sv ev x with
  | none => rw [pickHit_none_right, pickHit_none_right]
  | some a =>
    cases hhy : clipHitAt l sv ev y with
    | none => rw [pickHit_none_right, pickHit_none_right]
    | some b =>
      by_cases hab : a = b
      · subst hab; rfl
      · refine pickHit_some_comm (fun hk => ?_) z
        unfold hkey at hk
        have hidx : indexC a.cell = indexC b.cell :=
          congrArg Prod.snd (toLex.injective hk)
        rw [clipHitAt_cell hhx, clipHitAt_cell hhy] at hidx
        have hxy : x = y := by
          obtain ⟨x1, x2, x3⟩ := x
          obtain ⟨y1, y2, y3⟩ := y
          obtain ⟨e1, e2, e3⟩ := index_inj (hin _ hx) (hin _ hy) hidx
          simp only [Prod.mk.injEq]
          exact ⟨e1, e2, e3⟩
        rw [hxy, hhy] at hhx
        exact hab ((Option.some.inj hhx).symm)

/-- C6: for every start point, end point, grid state, and value of the
optional `expected` hint (absent, correct, or wrong), `clip` returns the
same `AABBPosition` as the hint-free query: the hint only reorders the
internal candidate scan, never the returned hit position or face. -/
theorem c6_clip_hint_independent (l : Level) (sv ev : Vec3)
    (expected : Option Coord) :
    clip l sv ev expected = clip l sv ev none := by
  unfold clip
  have key : (orderedCands (candidateCells sv ev) expected).foldl
      (fun acc c => pickHit acc (clipHitAt l sv ev c)) none =
      (candidateCells sv ev).foldl
        (fun acc c => pickHit acc (clipHitAt l sv ev c)) none := by
    cases expected with
    | none => rfl
    | some h =>
      simp only [orderedCands]
      by_cases hmem : h ∈ candidateCells sv ev
      · rw [if_pos hmem]
        refine clip_fold_perm l sv ev (perm_cons_removeFirst hmem).symm ?_
        intro c hc
        rcases List.mem_cons.mp hc with rfl | hc'
        · exact (List.mem_filter.mp hmem).2
        · exact (List.mem_filter.mp (mem_of_mem_removeFirst hc')).2
      · rw [if_neg hmem]
  rw [key]
  rfl

end Level

namespace Level

/-- Reading back a packed in-bounds write. -/
theorem getTileC_writeTileC_self {l : Level} {c : Coord} {t : Byte}
    (h : isInBoundsC c = true) : getTileC (writeTileC l c t) c = t :=
  getTile_writeTile_self h

/-- A packed write leaves every other cell alone. -/
theorem getTileC_writeTileC_other {l : Level} {c c' : Coord} {t : Byte}
    (hne : c' ≠ c) : getTileC (writeTileC l c t) c' = getTileC l c' := by
  obtain ⟨x, y, z⟩ := c
  obtain ⟨a, b, d⟩ := c'
  refine getTile_writeTile_other fun hcomp => ?_
  obtain ⟨h1, h2, h3⟩ := hcomp
  refine hne ?_
  simp only [Prod.mk.injEq]
  exact ⟨h1, h2, h3⟩

/-- An out-of-bounds packed write is a no-op. -/
theorem writeTileC_oob {l : Level} {c : Coord} {t : Byte}
    (h : ¬ isInBoundsC c = true) : writeTileC l c t = l := by
  unfold writeTileC writeTile
  rw [if_neg (show ¬ isInBounds c.1 c.2.1 c.2.2 = true from h)]

/-- A packed write never touches the queue. -/
theorem writeTileC_updates (l : Level) (c : Coord) (t : Byte) :
    (writeTileC l c t).updates = l.updates :=
  writeTile_updates l c.1 c.2.1 c.2.2 t

/-- A non-air tile pins its coordinate in bounds. -/
theorem inBounds_of_ne_air {l : Level} {c : Coord}
    (h : getTileC l c ≠ AIR) : isInBoundsC c = true := by
  by_cases hb : isInBoundsC c = true
  · exact hb
  · refine absurd ?_ h
    have hb' : isInBounds c.1 c.2.1 c.2.2 = false := by
      simpa [isInBoundsC] using hb
    simp [getTileC, getTile, hb']

/-- `canFlood` transported along air-preserving equivalences. -/
theorem canFloodC_congr {l l' : Level} {t : Byte}
    (h : ∀ c, getTileC l' c = AIR ↔ getTileC l c = AIR) (d : Coord) :
    canFloodC l' d t = canFloodC l d t := by
  unfold canFloodC canFlood
  have hair : isAirTile (getTile l' d.1 d.2.1 d.2.2) =
      isAirTile (getTile l d.1 d.2.1 d.2.2) := by
    by_cases ha : getTileC l' d = AIR
    · have hb : getTileC l d = AIR := (h d).mp ha
      unfold isAirTile
      rw [show getTile l' d.1 d.2.1 d.2.2 = AIR from ha,
        show getTile l d.1 d.2.1 d.2.2 = AIR from hb]
    · have hb : ¬ getTileC l d = AIR := fun hb => ha ((h d).mpr hb)
      have ha' : getTile l' d.1 d.2.1 d.2.2 ≠ AIR := ha
      have hb' : getTile l d.1 d.2.1 d.2.2 ≠ AIR := hb
      unfold isAirTile
      rw [beq_eq_false_iff_ne.mpr ha', beq_eq_false_iff_ne.mpr hb']
  rw [hair]

/-- `floodTargets` transported along air-preserving equivalences. -/
theorem floodTargets_congr {l l' : Level} (c : Coord) (t : Byte)
    (h : ∀ e, getTileC l' e = AIR ↔ getTileC l e = AIR) :
    floodTargets l' c t = floodTargets l c t := by
  unfold floodTargets
  rw [canFloodC_congr h (belowC c)]
  by_cases hb : canFloodC l (belowC c) t = true
  · rw [if_pos hb, if_pos hb]
  · rw [if_neg hb, if_neg hb]
    exact List.filter_congr fun d _ => canFloodC_congr h d

/-- `canFlood` only weakens when air cells disappear. -/
theorem canFloodC_mono {l l' : Level} {t : Byte}
    (h : ∀ e, getTileC l' e = AIR → getTileC l e = AIR) (d : Coord) :
    canFloodC l' d t = true → canFloodC l d t = true := by
  intro hd
  unfold canFloodC canFlood at hd ⊢
  simp only [Bool.and_eq_true] at hd ⊢
  refine ⟨⟨hd.1.1, ?_⟩, hd.2⟩
  have ha : getTileC l' d = AIR := by
    have := hd.1.2
    unfold isAirTile at this
    exact beq_iff_eq.mp this
  have hb := h d ha
  unfold isAirTile
  exact beq_iff_eq.mpr hb

/-- Emptiness of `floodTargets` persists when air cells only disappear. -/
theorem floodTargets_nil_mono {l l' : Level} {c : Coord} {t : Byte}
    (h : ∀ e, getTileC l' e = AIR → getTileC l e = AIR)
    (hnil : floodTargets l c t = []) : floodTargets l' c t = [] := by
  unfold floodTargets at hnil ⊢
  by_cases hb : canFloodC l' (belowC c) t = true
  · rw [if_pos (canFloodC_mono h (belowC c) hb)] at hnil
    exact absurd hnil (by simp)
  · rw [if_neg hb, List.filter_eq_nil_iff]
    intro d hd hcf
    by_cases hb2 : canFloodC l (belowC c) t = true
    · rw [if_pos hb2] at hnil
      exact absurd hnil (by simp)
    · rw [if_neg hb2, List.filter_eq_nil_iff] at hnil
      exact hnil d hd (canFloodC_mono h d hcf)

/-- Every flood target is floodable. -/
theorem floodTargets_sound {l : Level} {c d : Coord} {t : Byte}
    (h : d ∈ floodTargets l c t) : canFloodC l d t = true := by
  unfold floodTargets at h
  by_cases hb : canFloodC l (belowC c) t = true
  · rw [if_pos hb] at h
    obtain rfl := List.mem_singleton.mp h
    exact hb
  · rw [if_neg hb] at h
    exact (List.mem_filter.mp h).2

/-- Unpacking a successful flood test. -/
theorem canFloodC_spec {l : Level} {d : Coord} {t : Byte}
    (h : canFloodC l d t = true) :
    isInBoundsC d = true ∧ getTileC l d = AIR ∧ isLiquidTile t = true := by
  unfold canFloodC canFlood at h
  simp only [Bool.and_eq_true] at h
  refine ⟨h.1.1, ?_, h.2⟩
  have := h.1.2
  unfold isAirTile at this
  exact beq_iff_eq.mp this

/-- A failed flood test on an in-bounds cell with a liquid source means
the cell is not air. -/
theorem not_air_of_not_canFloodC {l : Level} {d : Coord} {t : Byte}
    (hin : isInBoundsC d = true) (hl : isLiquidTile t = true)
    (h : ¬ canFloodC l d t = true) : getTileC l d ≠ AIR := by
  intro ha
  refine h ?_
  unfold canFloodC canFlood
  simp only [Bool.and_eq_true]
  refine ⟨⟨hin, ?_⟩, hl⟩
  unfold isAirTile
  exact beq_iff_eq.mpr ha

/-- The four horizontal neighbors are pairwise distinct. -/
theorem horizNeighbors_nodup (c : Coord) : (horizNeighbors c).Nodup := by
  obtain ⟨x, y, z⟩ := c
  simp [horizNeighbors, Prod.mk.injEq]
  omega

/-- Air-iff equivalence for a non-air write over a non-air cell. -/
theorem air_iff_write_over_nonair {l : Level} {c : Coord} {v : Byte}
    (hv : v ≠ AIR) (hc : getTileC l c ≠ AIR) (e : Coord) :
    getTileC (writeTileC l c v) e = AIR ↔ getTileC l e = AIR := by
  by_cases he : e = c
  · subst he
    by_cases hb : isInBoundsC e = true
    · rw [getTileC_writeTileC_self hb]
      exact ⟨fun h => absurd h hv, fun h => absurd h hc⟩
    · rw [writeTileC_oob hb]
  · rw [getTileC_writeTileC_other he]

/-- Air cells only disappear under a non-air write. -/
theorem air_mono_write {l : Level} {c : Coord} {v : Byte} (hv : v ≠ AIR)
    (e : Coord) : getTileC (writeTileC l c v) e = AIR → getTileC l e = AIR := by
  by_cases he : e = c
  · subst he
    by_cases hb : isInBoundsC e = true
    · rw [getTileC_writeTileC_self hb]
      exact fun h => absurd h hv
    · rw [writeTileC_oob hb]
      exact id
  · rw [getTileC_writeTileC_other he]
    exact id

/-- The blocks array of a packed in-bounds write. -/
theorem writeTileC_blocks {l : Level} {c : Coord} {v : Byte}
    (hb : isInBoundsC c = true) :
    (writeTileC l c v).blocks = Function.update l.blocks (indexC c) v := by
  unfold writeTileC writeTile
  rw [if_pos (show isInBounds c.1 c.2.1 c.2.2 = true from hb)]
  rfl

/-- The queue does not enter the air measure. -/
theorem airCount_updatesSet (l : Level) (u : List Coord) :
    airCount { l with updates := u } = airCount l := rfl

/-- A non-air write never increases the air measure. -/
theorem airCount_write_le {l : Level} {c : Coord} {v : Byte} (hv : v ≠ AIR) :
    airCount (writeTileC l c v) ≤ airCount l := by
  by_cases hb : isInBoundsC c = true
  · refine Finset.card_le_card ?_
    intro i hi
    simp only [Finset.mem_filter, Finset.mem_range] at hi ⊢
    refine ⟨hi.1, ?_⟩
    have h2 := hi.2
    rw [writeTileC_blocks hb] at h2
    by_cases hic : i = indexC c
    · subst hic
      rw [Function.update_same] at h2
      exact absurd h2 hv
    · rwa [Function.update_noteq hic] at h2
  · rw [writeTileC_oob hb]

/-- A non-air write over an in-bounds air cell strictly shrinks the air
measure. -/
theorem airCount_write_lt {l : Level} {c : Coord} {v : Byte} (hv : v ≠ AIR)
    (hb : isInBoundsC c = true) (ha : getTileC l c = AIR) :
    airCount (writeTileC l c v) < airCount l := by
  refine Finset.card_lt_card ?_
  rw [Finset.ssubset_iff_of_subset ?_]
  · refine ⟨indexC c, ?_, ?_⟩
    · simp only [Finset.mem_filter, Finset.mem_range]
      refine ⟨index_lt_volume hb, ?_⟩
      have : getTile l c.1 c.2.1 c.2.2 = AIR := ha
      rwa [getTile, if_pos (show isInBounds c.1 c.2.1 c.2.2 = true from hb)]
        at this
    · simp only [Finset.mem_filter, Finset.mem_range, not_and]
      intro hlt
      rw [writeTileC_blocks hb, Function.update_same]
      exact hv
  · intro i hi
    simp only [Finset.mem_filter, Finset.mem_range] at hi ⊢
    refine ⟨hi.1, ?_⟩
    have h2 := hi.2
    rw [writeTileC_blocks hb] at h2
    by_cases hic : i = indexC c
    · subst hic
      rw [Function.update_same] at h2
      exact absurd h2 hv
    · rwa [Function.update_noteq hic] at h2

/-- Without lava anywhere, a flooded water cell never triggers the
contact conversion. -/
theorem oppositeNearby_false_of_noLava {l : Level} (d : Coord)
    (hnl : ∀ c, isLavaTile (getTileC l c) = false) :
    oppositeNearby l d FLOWING_WATER = false := by
  unfold oppositeNearby
  rw [List.any_eq_false]
  intro e _
  have hw : isWaterTile FLOWING_WATER = true := by decide
  simp [hw, hnl e]

/-- Without lava anywhere, flooding water writes flowing water. -/
theorem floodResult_water {l : Level} (d : Coord)
    (hnl : ∀ c, isLavaTile (getTileC l c) = false) :
    floodResult l d FLOWING_WATER = FLOWING_WATER := by
  unfold floodResult
  rw [oppositeNearby_false_of_noLava d hnl]
  simp

/-- One water flood step preserves the flood invariant; it appends the
target to the queue, writes flowing water there, and touches nothing
else. -/
theorem floodInv_floodInto {R : Finset Coord} {a : Level} {d : Coord}
    {q : List Coord} (inv : FloodInv R a q) (hin : isInBoundsC d = true)
    (hair : getTileC a d = AIR) :
    FloodInv R (floodInto a FLOWING_WATER d) q ∧
      (floodInto a FLOWING_WATER d).updates = a.updates ++ [d] ∧
      (∀ e, getTileC (floodInto a FLOWING_WATER d) e = AIR →
        getTileC a e = AIR) ∧
      ∀ e, e ≠ d →
        getTileC (floodInto a FLOWING_WATER d) e = getTileC a e := by
  have hres := floodResult_water d inv.noLava
  have hfl : floodInto a FLOWING_WATER d =
      { writeTileC a d FLOWING_WATER with
          updates := (writeTileC a d FLOWING_WATER).updates ++ [d] } := by
    unfold floodInto
    rw [hres, if_pos (show isLiquidTile FLOWING_WATER = true by decide)]
  have hdR : d ∈ R := by
    by_contra hdR
    have := inv.wall d hin hdR
    rw [hair] at this
    exact absurd this (by decide)
  have hwd : getTileC (floodInto a FLOWING_WATER d) d = FLOWING_WATER := by
    rw [hfl]
    exact getTileC_writeTileC_self hin
  have hother : ∀ e, e ≠ d →
      getTileC (floodInto a FLOWING_WATER d) e = getTileC a e := by
    intro e he
    rw [hfl]
    exact getTileC_writeTileC_other he
  have hupd : (floodInto a FLOWING_WATER d).updates = a.updates ++ [d] := by
    rw [hfl]
    show (writeTileC a d FLOWING_WATER).updates ++ [d] = a.updates ++ [d]
    rw [writeTileC_updates]
  have hmono : ∀ e, getTileC (floodInto a FLOWING_WATER d) e = AIR →
      getTileC a e = AIR := by
    intro e he
    rw [hfl] at he
    exact air_mono_write (show FLOWING_WATER ≠ AIR by decide) e he
  refine ⟨⟨inv.rin, ?_, ?_, ?_, ?_, ?_⟩, hupd, hmono, hother⟩
  · intro c hcin hcR
    rw [hother c (fun hcd => hcR (hcd ▸ hdR))]
    exact inv.wall c hcin hcR
  · intro c hcR
    by_cases hcd : c = d
    · subst hcd
      rw [hwd]
      exact Or.inr (by decide)
    · rw [hother c hcd]
      exact inv.rcell c hcR
  · intro c
    by_cases hcd : c = d
    · subst hcd
      rw [hwd]
      decide
    · rw [hother c hcd]
      exact inv.noLava c
  · intro c hc
    have hcd : c ≠ d := by
      intro hcd
      rw [hcd, hwd] at hc
      exact absurd hc (by decide)
    rw [hother c hcd] at hc
    exact floodTargets_nil_mono hmono (inv.still c hc)
  · intro c hc
    by_cases hcd : c = d
    · subst hcd
      refine Or.inr (Or.inr ?_)
      rw [hupd]
      exact List.mem_append_right _ (List.mem_singleton.mpr rfl)
    · rw [hother c hcd] at hc
      rcases inv.cover c hc with h | h | h
      · exact Or.inl (floodTargets_nil_mono hmono h)
      · exact Or.inr (Or.inl h)
      · refine Or.inr (Or.inr ?_)
        rw [hupd]
        exact List.mem_append_left _ h

/-- The whole flood fold of one entry preserves the flood invariant,
only extends the queue, and only removes air. -/
theorem floodInv_floodFold {R : Finset Coord} {q : List Coord} :
    ∀ (ts : List Coord) (a : Level), FloodInv R a q →
      (∀ d ∈ ts, isInBoundsC d = true ∧ getTileC a d = AIR) → ts.Nodup →
      FloodInv R (ts.foldl (fun acc d => floodInto acc FLOWING_WATER d) a) q ∧
        (∀ u ∈ a.updates,
          u ∈ (ts.foldl (fun acc d => floodInto acc FLOWING_WATER d) a).updates) ∧
        ∀ e, getTileC (ts.foldl (fun acc d => floodInto acc FLOWING_WATER d) a)
            e = AIR → getTileC a e = AIR
  | [], _, inv, _, _ => ⟨inv, fun _ hu => hu, fun _ he => he⟩
  | d :: ts, a, inv, hts, hnd => by
    simp only [List.foldl_cons]
    obtain ⟨hdin, hdair⟩ := hts d (List.mem_cons_self d ts)
    obtain ⟨inv2, hupd, hmono, hother⟩ := floodInv_floodInto inv hdin hdair
    obtain ⟨hnd1, hnd2⟩ := List.nodup_cons.mp hnd
    have hts2 : ∀ e ∈ ts, isInBoundsC e = true ∧
        getTileC (floodInto a FLOWING_WATER d) e = AIR := by
      intro e he
      obtain ⟨h1, h2⟩ := hts e (List.mem_cons_of_mem d he)
      refine ⟨h1, ?_⟩
      rw [hother e (fun hed => hnd1 (hed ▸ he))]
      exact h2
    obtain ⟨i1, i2, i3⟩ :=
      floodInv_floodFold ts (floodInto a FLOWING_WATER d) inv2 hts2 hnd2
    refine ⟨i1, ?_, ?_⟩
    · intro u hu
      refine i2 u ?_
      rw [hupd]
      exact List.mem_append_left _ hu
    · intro e he
      exact hmono e (i3 e he)

/-- A flowing entry under the no-lava invariant holds flowing water. -/
theorem flowing_water_of_moving {R : Finset Coord} {acc : Level}
    {q : List Coord} (inv : FloodInv R acc q) {e : Coord}
    (hm : (isMovingWaterTile (getTileC acc e) ||
      isMovingLavaTile (getTileC acc e)) = true) :
    getTileC acc e = FLOWING_WATER := by
  have hnl := inv.noLava e
  have hml : isMovingLavaTile (getTileC acc e) = false := by
    unfold isLavaTile at hnl
    unfold isMovingLavaTile
    exact (Bool.or_eq_false_iff.mp hnl).1
  rw [hml, Bool.or_false] at hm
  unfold isMovingWaterTile at hm
  exact beq_iff_eq.mp hm

/-- Draining one queue entry preserves the flood invariant, discharging
the entry from the pending portion. -/
theorem floodInv_processEntry {R : Finset Coord} {acc : Level} {e : Coord}
    {rem : List Coord} (inv : FloodInv R acc (e :: rem)) :
    FloodInv R (processEntry acc e) rem := by
  unfold processEntry
  by_cases hm : (isMovingWaterTile (getTileC acc e) ||
      isMovingLavaTile (getTileC acc e)) = true
  case neg =>
    rw [if_neg hm]
    refine ⟨inv.rin, inv.wall, inv.rcell, inv.noLava, inv.still, ?_⟩
    intro c hc
    rcases inv.cover c hc with h | h | h
    · exact Or.inl h
    · rcases List.mem_cons.mp h with rfl | h2
      · refine absurd ?_ hm
        rw [hc]
        decide
      · exact Or.inr (Or.inl h2)
    · exact Or.inr (Or.inr h)
  case pos =>
    rw [if_pos hm]
    have hfw := flowing_water_of_moving inv hm
    rw [hfw]
    have hene : getTileC acc e ≠ AIR := by rw [hfw]; decide
    have hein : isInBoundsC e = true := inBounds_of_ne_air hene
    have heR : e ∈ R := by
      by_contra heR
      have := inv.wall e hein heR
      rw [hfw] at this
      exact absurd this (by decide)
    by_cases hemp : (floodTargets acc e FLOWING_WATER).isEmpty = true
    · rw [if_pos hemp]
      have hnil : floodTargets acc e FLOWING_WATER = [] :=
        List.isEmpty_iff.mp hemp
      rw [show stillOf FLOWING_WATER = STILL_WATER by decide]
      have hiff := air_iff_write_over_nonair
        (show STILL_WATER ≠ AIR by decide) hene (l := acc) (c := e)
      have hft : ∀ c t, floodTargets (writeTileC acc e STILL_WATER) c t =
          floodTargets acc c t :=
        fun c t => floodTargets_congr c t hiff
      have hself : getTileC (writeTileC acc e STILL_WATER) e = STILL_WATER :=
        getTileC_writeTileC_self hein
      refine ⟨inv.rin, ?_, ?_, ?_, ?_, ?_⟩
      · intro c hcin hcR
        rw [getTileC_writeTileC_other
          (fun hce : c = e => hcR (hce.symm ▸ heR))]
        exact inv.wall c hcin hcR
      · intro c hcR
        by_cases hce : c = e
        · subst hce
          rw [hself]
          exact Or.inr (by decide)
        · rw [getTileC_writeTileC_other hce]
          exact inv.rcell c hcR
      · intro c
        by_cases hce : c = e
        · subst hce
          rw [hself]
          decide
        · rw [getTileC_writeTileC_other hce]
          exact inv.noLava c
      · intro c hc
        by_cases hce : c = e
        · subst hce
          rw [hft, hnil]
        · rw [getTileC_writeTileC_other hce] at hc
          rw [hft]
          exact inv.still c hc
      · intro c hc
        have hce : c ≠ e := by
          intro hce
          rw [hce, hself] at hc
          exact absurd hc (by decide)
        rw [getTileC_writeTileC_other hce] at hc
        rcases inv.cover c hc with h | h | h
        · rw [hft]
          exact Or.inl h
        · rcases List.mem_cons.mp h with rfl | h2
          · exact absurd rfl hce
          · exact Or.inr (Or.inl h2)
        · refine Or.inr (Or.inr ?_)
          rw [writeTileC_updates]
          exact h
    · rw [if_neg hemp]
      have htsprop : ∀ d ∈ floodTargets acc e FLOWING_WATER,
          isInBoundsC d = true ∧ getTileC acc d = AIR := by
        intro d hd
        obtain ⟨h1, h2, _⟩ := canFloodC_spec (floodTargets_sound hd)
        exact ⟨h1, h2⟩
      have htsnd : (floodTargets acc e FLOWING_WATER).Nodup := by
        unfold floodTargets
        by_cases hb : canFloodC acc (belowC e) FLOWING_WATER = true
        · rw [if_pos hb]
          exact List.nodup_singleton _
        · rw [if_neg hb]
          exact (horizNeighbors_nodup e).filter _
      obtain ⟨i1, i2, _⟩ := floodInv_floodFold
        (floodTargets acc e FLOWING_WATER) acc inv htsprop htsnd
      refine ⟨inv.rin, i1.wall, i1.rcell, i1.noLava, i1.still, ?_⟩
      intro c hc
      rcases i1.cover c hc with h | h | h
      · exact Or.inl h
      · rcases List.mem_cons.mp h with rfl | h2
        · refine Or.inr (Or.inr ?_)
          exact List.mem_append_right _ (List.mem_singleton.mpr rfl)
        · exact Or.inr (Or.inl h2)
      · refine Or.inr (Or.inr ?_)
        exact List.mem_append_left _ h

/-- Draining a pending list preserves the flood invariant. -/
theorem floodInv_drain {R : Finset Coord} :
    ∀ (rem : List Coord) (acc : Level), FloodInv R acc rem →
      FloodInv R (rem.foldl processEntry acc) []
  | [], _, inv => inv
  | e :: rem, acc, inv => by
    simp only [List.foldl_cons]
    exact floodInv_drain rem (processEntry acc e) (floodInv_processEntry inv)

/-- One tick preserves the flood invariant. -/
theorem floodInv_tick {R : Finset Coord} {l : Level}
    (inv : FloodInv R l []) : FloodInv R (tick l) [] := by
  unfold tick
  refine floodInv_drain l.updates { l with updates := [] }
    ⟨inv.rin, inv.wall, inv.rcell, inv.noLava, inv.still, ?_⟩
  intro c hc
  rcases inv.cover c hc with h | h | h
  · exact Or.inl h
  · exact absurd h (List.not_mem_nil c)
  · exact Or.inr (Or.inl h)

/-- Iterated ticks preserve the flood invariant. -/
theorem floodInv_iterate {R : Finset Coord} {l : Level}
    (inv : FloodInv R l []) (n : Nat) : FloodInv R (tick^[n] l) [] := by
  induction n with
  | zero => exact inv
  | succ n ih =>
    rw [Function.iterate_succ_apply']
    exact floodInv_tick ih

/-- A flood write is never air. -/
theorem floodResult_ne_air {l : Level} {d : Coord} {t : Byte}
    (ht : t ≠ AIR) : floodResult l d t ≠ AIR := by
  unfold floodResult
  by_cases h : oppositeNearby l d t = true
  · rw [if_pos h]
    decide
  · rw [if_neg h]
    exact ht

/-- A flood step never increases the air measure. -/
theorem airCount_floodInto_le {l : Level} {t : Byte} {d : Coord}
    (ht : t ≠ AIR) : airCount (floodInto l t d) ≤ airCount l := by
  unfold floodInto
  by_cases h : isLiquidTile (floodResult l d t) = true
  · rw [if_pos h]
    exact airCount_write_le (floodResult_ne_air ht)
  · rw [if_neg h]
    exact airCount_write_le (floodResult_ne_air ht)

/-- A flood step into a floodable cell strictly shrinks the air measure. -/
theorem airCount_floodInto_lt {l : Level} {t : Byte} {d : Coord}
    (ht : t ≠ AIR) (hc : canFloodC l d t = true) :
    airCount (floodInto l t d) < airCount l := by
  obtain ⟨h1, h2, _⟩ := canFloodC_spec hc
  unfold floodInto
  by_cases h : isLiquidTile (floodResult l d t) = true
  · rw [if_pos h]
    exact airCount_write_lt (floodResult_ne_air ht) h1 h2
  · rw [if_neg h]
    exact airCount_write_lt (floodResult_ne_air ht) h1 h2

/-- A flood fold never increases the air measure. -/
theorem airCount_floodFold_le {t : Byte} (ht : t ≠ AIR) :
    ∀ (ts : List Coord) (a : Level),
      airCount (ts.foldl (fun acc d => floodInto acc t d) a) ≤ airCount a
  | [], _ => le_refl _
  | d :: ts, a => by
    simp only [List.foldl_cons]
    exact le_trans (airCount_floodFold_le ht ts _) (airCount_floodInto_le ht)

/-- A flowing entry holds flowing water or flowing lava. -/
theorem moving_cases {a : Level} {e : Coord}
    (hm : (isMovingWaterTile (getTileC a e) ||
      isMovingLavaTile (getTileC a e)) = true) :
    getTileC a e = FLOWING_WATER ∨ getTileC a e = FLOWING_LAVA := by
  rcases Bool.or_eq_true_iff.mp hm with h | h
  · unfold isMovingWaterTile at h
    exact Or.inl (beq_iff_eq.mp h)
  · unfold isMovingLavaTile at h
    exact Or.inr (beq_iff_eq.mp h)

/-- Draining one entry never increases the air measure, and either keeps
the queue exactly as it was or strictly shrinks the measure. -/
theorem processEntry_air (a : Level) (e : Coord) :
    airCount (processEntry a e) ≤ airCount a ∧
      ((processEntry a e).updates = a.updates ∨
        airCount (processEntry a e) < airCount a) := by
  unfold processEntry
  by_cases hm : (isMovingWaterTile (getTileC a e) ||
      isMovingLavaTile (getTileC a e)) = true
  case neg =>
    rw [if_neg hm]
    exact ⟨le_refl _, Or.inl rfl⟩
  case pos =>
    rw [if_pos hm]
    have ht := moving_cases hm
    have htne : getTileC a e ≠ AIR := by
      rcases ht with h | h <;> rw [h] <;> decide
    by_cases hemp : (floodTargets a e (getTileC a e)).isEmpty = true
    · rw [if_pos hemp]
      have hst : stillOf (getTileC a e) ≠ AIR := by
        rcases ht with h | h <;> rw [h] <;> decide
      exact ⟨airCount_write_le hst, Or.inl (writeTileC_updates a e _)⟩
    · rw [if_neg hemp]
      have hne : floodTargets a e (getTileC a e) ≠ [] := by
        intro h
        rw [h] at hemp
        exact hemp rfl
      obtain ⟨d, ds, hds⟩ := List.exists_cons_of_ne_nil hne
      have hcan : canFloodC a d (getTileC a e) = true :=
        floodTargets_sound (hds ▸ List.mem_cons_self d ds)
      have hkey : airCount ((floodTargets a e (getTileC a e)).foldl
          (fun acc d' => floodInto acc (getTileC a e) d') a) < airCount a := by
        rw [hds]
        simp only [List.foldl_cons]
        exact lt_of_le_of_lt (airCount_floodFold_le htne ds _)
          (airCount_floodInto_lt htne hcan)
      exact ⟨le_of_lt hkey, Or.inr hkey⟩

/-- One tick never increases the air measure, and either empties the
queue or strictly shrinks the measure. -/
theorem tick_air (l : Level) :
    airCount (tick l) ≤ airCount l ∧
      ((tick l).updates = [] ∨ airCount (tick l) < airCount l) := by
  unfold tick
  suffices h : ∀ (rem : List Coord) (acc : Level),
      airCount acc ≤ airCount l →
      (acc.updates = [] ∨ airCount acc < airCount l) →
      airCount (rem.foldl processEntry acc) ≤ airCount l ∧
        ((rem.foldl processEntry acc).updates = [] ∨
          airCount (rem.foldl processEntry acc) < airCount l) by
    exact h l.updates { l with updates := [] } (le_refl _) (Or.inl rfl)
  intro rem
  induction rem with
  | nil => exact fun acc h1 h2 => ⟨h1, h2⟩
  | cons e rem ih =>
    intro acc h1 h2
    simp only [List.foldl_cons]
    obtain ⟨p1, p2⟩ := processEntry_air acc e
    refine ih _ (le_trans p1 h1) ?_
    rcases p2 with hp | hp
    · rcases h2 with h2 | h2
      · exact Or.inl (hp.trans h2)
      · exact Or.inr (lt_of_le_of_lt p1 h2)
    · exact Or.inr (lt_of_lt_of_le hp h1)

/-- A tick of an empty queue is the identity. -/
theorem tick_of_no_updates {l : Level} (h : l.updates = []) : tick l = l := by
  obtain ⟨b, d, g, w, u⟩ := l
  have hu : u = [] := h
  subst hu
  rfl

/-- Once the queue is empty all later states coincide. -/
theorem iterate_tick_of_no_updates {l : Level} (h : l.updates = [])
    (n : Nat) : tick^[n] l = l :=
  Function.iterate_fixed (tick_of_no_updates h) n

/-- The update queue drains within `airCount + 2` ticks and stays empty
forever after. -/
theorem tick_terminates_aux :
    ∀ (k : Nat) (l : Level), airCount l ≤ k →
      ∃ N, N ≤ k + 2 ∧ (tick^[N] l).updates = [] ∧
        ∀ M, N ≤ M → (tick^[M] l).updates = [] := by
  intro k
  induction k with
  | zero =>
    intro l hk
    by_cases hq : l.updates = []
    · refine ⟨0, by omega, hq, fun M _ => ?_⟩
      rw [iterate_tick_of_no_updates hq]
      exact hq
    · obtain ⟨h1, h2⟩ := tick_air l
      rcases h2 with h2 | h2
      · refine ⟨1, by omega, ?_, ?_⟩
        · rw [Function.iterate_one]
          exact h2
        · intro M hM
          obtain ⟨m, rfl⟩ : ∃ m, M = m + 1 := ⟨M - 1, by omega⟩
          rw [Function.iterate_succ_apply, iterate_tick_of_no_updates h2]
          exact h2
      · omega
  | succ k ih =>
    intro l hk
    by_cases hq : l.updates = []
    · refine ⟨0, by omega, hq, fun M _ => ?_⟩
      rw [iterate_tick_of_no_updates hq]
      exact hq
    · obtain ⟨h1, h2⟩ := tick_air l
      rcases h2 with h2 | h2
      · refine ⟨1, by omega, ?_, ?_⟩
        · rw [Function.iterate_one]
          exact h2
        · intro M hM
          obtain ⟨m, rfl⟩ : ∃ m, M = m + 1 := ⟨M - 1, by omega⟩
          rw [Function.iterate_succ_apply, iterate_tick_of_no_updates h2]
          exact h2
      · obtain ⟨N, hN1, hN2, hN3⟩ := ih (tick l) (by omega)
        refine ⟨N + 1, by omega, ?_, ?_⟩
        · rw [Function.iterate_succ_apply]
          exact hN2
        · intro M hM
          obtain ⟨m, rfl⟩ : ∃ m, M = m + 1 := ⟨M - 1, by omega⟩
          rw [Function.iterate_succ_apply]
          exact hN3 m (by omega)

/-- A flood fold only removes air. -/
theorem air_mono_floodFold {t : Byte} (ht : t ≠ AIR) :
    ∀ (ts : List Coord) (a : Level) (c : Coord),
      getTileC (ts.foldl (fun acc d => floodInto acc t d) a) c = AIR →
      getTileC a c = AIR
  | [], _, _ => id
  | d :: ts, a, c => by
    simp only [List.foldl_cons]
    intro h
    have h2 := air_mono_floodFold ht ts _ c h
    revert h2
    unfold floodInto
    by_cases hl : isLiquidTile (floodResult a d t) = true
    · rw [if_pos hl]
      exact air_mono_write (floodResult_ne_air ht) c
    · rw [if_neg hl]
      exact air_mono_write (floodResult_ne_air ht) c

/-- Draining one entry only removes air. -/
theorem processEntry_air_mono (a : Level) (e : Coord) (c : Coord) :
    getTileC (processEntry a e) c = AIR → getTileC a c = AIR := by
  unfold processEntry
  by_cases hm : (isMovingWaterTile (getTileC a e) ||
      isMovingLavaTile (getTileC a e)) = true
  case neg =>
    rw [if_neg hm]
    exact id
  case pos =>
    rw [if_pos hm]
    have ht := moving_cases hm
    have htne : getTileC a e ≠ AIR := by
      rcases ht with h | h <;> rw [h] <;> decide
    by_cases hemp : (floodTargets a e (getTileC a e)).isEmpty = true
    · rw [if_pos hemp]
      have hst : stillOf (getTileC a e) ≠ AIR := by
        rcases ht with h | h <;> rw [h] <;> decide
      exact air_mono_write hst c
    · rw [if_neg hemp]
      exact air_mono_floodFold htne _ a c

/-- One tick only removes air. -/
theorem tick_air_mono (l : Level) (c : Coord) :
    getTileC (tick l) c = AIR → getTileC l c = AIR := by
  unfold tick
  suffices h : ∀ (rem : List Coord) (acc : Level),
      getTileC (rem.foldl processEntry acc) c = AIR →
      getTileC acc c = AIR from
    h l.updates { l with updates := [] }
  intro rem
  induction rem with
  | nil => exact fun _ => id
  | cons e rem ih =>
    intro acc h
    simp only [List.foldl_cons] at h
    exact processEntry_air_mono acc e c (ih _ h)

/-- Iterated ticks only remove air. -/
theorem iterate_air_mono (l : Level) (c : Coord) (n : Nat) :
    getTileC (tick^[n] l) c = AIR → getTileC l c = AIR := by
  induction n with
  | zero => exact id
  | succ n ih =>
    rw [Function.iterate_succ_apply']
    exact fun h => ih (tick_air_mono _ c h)

/-- A solid tile is not lava. -/
theorem not_lava_of_solid {t : Byte} (h : isSolidTile t = true) :
    isLavaTile t = false := by
  unfold isSolidTile at h
  simp only [Bool.and_eq_true, Bool.not_eq_true'] at h
  unfold isLiquidTile at h
  exact (Bool.or_eq_false_iff.mp h.2).2

/-- Out-of-bounds reads are air. -/
theorem getTileC_oob {l : Level} {c : Coord} (h : ¬ isInBoundsC c = true) :
    getTileC l c = AIR := by
  have hb : isInBounds c.1 c.2.1 c.2.2 = false := by
    simpa [isInBoundsC] using h
  simp [getTileC, getTile, hb]

/-- Unpacking the water classification. -/
theorem water_cases {t : Byte} (h : isWaterTile t = true) :
    t = FLOWING_WATER ∨ t = STILL_WATER := by
  unfold isWaterTile at h
  rcases Bool.or_eq_true_iff.mp h with h | h
  · exact Or.inl (beq_iff_eq.mp h)
  · exact Or.inr (beq_iff_eq.mp h)

/-- C5: liquid flood propagation terminates.  For any enclosed finite
empty region `R` with one flowing-water seed queued, there is a bounded
number of ticks — at most the air-cell count plus two — after which the
update queue is empty and stays empty on every later tick (no infinite
re-enqueue cycle), and every cell reachable from the seed by the
gravity-aware flow rule has been filled with water. -/
theorem c5_flood_terminates (R : Finset Coord) (seed : Coord) (l : Level)
    (hrin : ∀ c ∈ R, isInBoundsC c = true)
    (hseedR : seed ∈ R)
    (hseed : getTileC l seed = FLOWING_WATER)
    (hair : ∀ c ∈ R, c ≠ seed → getTileC l c = AIR)
    (hwall : ∀ c, isInBoundsC c = true → c ∉ R →
      isSolidTile (getTileC l c) = true)
    (hq : l.updates = [seed]) :
    ∃ N, N ≤ airCount l + 2 ∧ (tick^[N] l).updates = [] ∧
      (∀ M, N ≤ M → (tick^[M] l).updates = []) ∧
      ∀ c, Reach R seed c →
        isWaterTile (getTileC (tick^[N] l) c) = true := by
  have inv0 : FloodInv R l [] := by
    refine ⟨hrin, hwall, ?_, ?_, ?_, ?_⟩
    · intro c hcR
      by_cases hcs : c = seed
      · subst hcs
        rw [hseed]
        exact Or.inr (by decide)
      · exact Or.inl (hair c hcR hcs)
    · intro c
      by_cases hcb : isInBoundsC c = true
      · by_cases hcR : c ∈ R
        · by_cases hcs : c = seed
          · subst hcs
            rw [hseed]
            decide
          · rw [hair c hcR hcs]
            decide
        · exact not_lava_of_solid (hwall c hcb hcR)
      · rw [getTileC_oob hcb]
        decide
    · intro c hc
      exfalso
      by_cases hcb : isInBoundsC c = true
      · by_cases hcR : c ∈ R
        · by_cases hcs : c = seed
          · subst hcs
            exact absurd (hseed.symm.trans hc) (by decide)
          · exact absurd ((hair c hcR hcs).symm.trans hc) (by decide)
        · have := hwall c hcb hcR
          rw [hc] at this
          exact absurd this (by decide)
      · rw [getTileC_oob hcb] at hc
        exact absurd hc (by decide)
    · intro c hc
      have hcs : c = seed := by
        by_cases hcb : isInBoundsC c = true
        · by_cases hcR : c ∈ R
          · by_contra hcs
            exact absurd ((hair c hcR hcs).symm.trans hc) (by decide)
          · have := hwall c hcb hcR
            rw [hc] at this
            exact absurd this (by decide)
        · rw [getTileC_oob hcb] at hc
          exact absurd hc (by decide)
      subst hcs
      refine Or.inr (Or.inr ?_)
      rw [hq]
      exact List.mem_singleton.mpr rfl
  obtain ⟨N, hN1, hN2, hN3⟩ := tick_terminates_aux (airCount l) l (le_refl _)
  have invN : FloodInv R (tick^[N] l) [] := floodInv_iterate inv0 N
  have closed : ∀ c, isWaterTile (getTileC (tick^[N] l) c) = true →
      floodTargets (tick^[N] l) c FLOWING_WATER = [] := by
    intro c hc
    rcases water_cases hc with h | h
    · rcases invN.cover c h with h2 | h2 | h2
      · exact h2
      · exact absurd h2 (List.not_mem_nil c)
      · rw [hN2] at h2
        exact absurd h2 (List.not_mem_nil c)
    · exact invN.still c h
  have hseedw : isWaterTile (getTileC (tick^[N] l) seed) = true := by
    have hne : getTileC (tick^[N] l) seed ≠ AIR := by
      intro h
      have := iterate_air_mono l seed N h
      rw [hseed] at this
      exact absurd this (by decide)
    rcases invN.rcell seed hseedR with h | h
    · exact absurd h hne
    · exact h
  refine ⟨N, hN1, hN2, hN3, ?_⟩
  intro c hreach
  induction hreach with
  | seed => exact hseedw
  | down hre hbR ih =>
    rename_i c0
    have hnil := closed c0 ih
    unfold floodTargets at hnil
    by_cases hb : canFloodC (tick^[N] l) (belowC c0) FLOWING_WATER = true
    · rw [if_pos hb] at hnil
      exact absurd hnil (by simp)
    · have hne := not_air_of_not_canFloodC (hrin _ hbR) (by decide) hb
      rcases invN.rcell _ hbR with h | h
      · exact absurd h hne
      · exact h
  | side hre hdh hdR ih =>
    rename_i c0 d
    have hnil := closed c0 ih
    unfold floodTargets at hnil
    by_cases hb : canFloodC (tick^[N] l) (belowC c0) FLOWING_WATER = true
    · rw [if_pos hb] at hnil
      exact absurd hnil (by simp)
    · rw [if_neg hb, List.filter_eq_nil_iff] at hnil
      have hcf := hnil d hdh
      have hne := not_air_of_not_canFloodC (hrin d hdR) (by decide) hcf
      rcases invN.rcell d hdR with h | h
      · exact absurd h hne
      · exact h

/-- C5 witness: the sealed three-cell region — the seed falls into the
cell below on the first tick and then spreads sideways over its own
water, filling the whole region before the queue settles. -/
theorem c5_flood_terminates_witness :
    ∃ N, N ≤ airCount sealedPool + 2 ∧ (tick^[N] sealedPool).updates = [] ∧
      (∀ M, N ≤ M → (tick^[M] sealedPool).updates = []) ∧
      ∀ c, Reach {(5, 5, 5), (5, 4, 5), (6, 5, 5)} (5, 5, 5) c →
        isWaterTile (getTileC (tick^[N] sealedPool) c) = true := by
  refine c5_flood_terminates {(5, 5, 5), (5, 4, 5), (6, 5, 5)} (5, 5, 5)
    sealedPool (by decide) (by decide) (by decide) (by decide) ?_ rfl
  intro c hcb hcR
  obtain ⟨x, y, z⟩ := c
  simp only [Finset.mem_insert, Finset.mem_singleton, not_or] at hcR
  obtain ⟨h1, h2, h3⟩ := hcR
  have hi1 : index x y z ≠ index 5 5 5 := by
    intro he
    obtain ⟨e1, e2, e3⟩ := index_inj hcb (by decide) he
    refine h1 ?_
    simp only [Prod.mk.injEq]
    exact ⟨e1, e2, e3⟩
  have hi2 : index x y z ≠ index 5 4 5 := by
    intro he
    obtain ⟨e1, e2, e3⟩ := index_inj hcb (by decide) he
    refine h2 ?_
    simp only [Prod.mk.injEq]
    exact ⟨e1, e2, e3⟩
  have hi3 : index x y z ≠ index 6 5 5 := by
    intro he
    obtain ⟨e1, e2, e3⟩ := index_inj hcb (by decide) he
    refine h3 ?_
    simp only [Prod.mk.injEq]
    exact ⟨e1, e2, e3⟩
  have hrock : getTileC sealedPool (x, y, z) = ROCK := by
    show getTile sealedPool x y z = ROCK
    rw [getTile, if_pos (show isInBounds x y z = true from hcb)]
    show (if index x y z = index 5 5 5 then FLOWING_WATER
      else if index x y z = index 5 4 5 then AIR
      else if index x y z = index 6 5 5 then AIR else ROCK) = ROCK
    rw [if_neg hi1, if_neg hi2, if_neg hi3]
  rw [hrock]
  decide

end Level

/-- C10 witness on the concrete byte string [49, 50]. -/
theorem c10_crc32_checksum_witness :
    (Game.inputF3 gameA).1 = gameA ∧
      (Game.inputF3 gameA).2 = crc32 (Game.blockData gameA) ∧
      crc32 [49, 50] = crc32Claim [49, 50] ∧ crc32 [49, 50] < 2 ^ 32 :=
  c10_crc32_checksum gameA [49, 50] (by decide)

end Cubic
